import Mathlib

/-!
Verification of the word-statistics / co-occurrence-graph core of the
funding-visualization repository (`visualization_modules/text_viz.py`).

The Python source is shallowly embedded below:

* Python `dict` (insertion-ordered, unique string keys) is embedded as an
  association list `List (String × Int)`; `dict[k]` access is `dictGet`
  (call sites of the source guarantee key presence, so the embedded default
  value is never observed in the verified flows).
* Python numbers in the rescaling helpers are embedded as `ℚ`
  (the source formulas are exact on the inputs the claims discuss);
  Python `int` is embedded as `ℤ`, and Python `//` as `Int.fdiv`
  (floor division, matching Python semantics on all integers).
* Functions that can raise (`max`/`min` on an empty list,
  `ZeroDivisionError`) are embedded with an `Option` result; `none` marks
  exactly the inputs on which the Python code raises.
* The stopword list is loaded from a data file and library constants
  (`get_stop_words`), which the spec places out of scope as read-only
  configuration; all definitions take the stopword list as a parameter.
* `networkx.Graph` is embedded as a structure with node-insertion order,
  node-attribute association list and an edge list in first-insertion
  order carrying the edge weight; adjacency, degree and the `G.edges()`
  iteration order are recovered from it exactly as `networkx` produces
  them.  The stochastic `spring_layout` positioning is omitted: no claim
  refers to node positions.
* `list(set(...))` in the tokenizer returns tokens in an unspecified
  order; the embedding fixes the order with `List.dedup`.  All verified
  statements are order-independent or stated relative to the produced
  order.
-/

namespace FundingViz

/-- One grant record; only the title text and the granted amount
(`"Titel"`, `"Bevilliget beløb"`) are read by the verified functions. -/
structure Record where
  titel : String
  amount : Int
deriving DecidableEq, Repr

/-! ### Tokenizer (`tokenize_and_stem`) -/

/-- The fixed replacement-character set `"; ,.:;*'_#!?´-()^"` of
`tokenize_and_stem`, written as a character list. -/
def replaceChars : List Char :=
  [';', ' ', ',', '.', ':', ';', '*', '\'', '_', '#', '!', '?', '´', '-',
   '(', ')', '^']

/-- Whitespace split of a character list, dropping empty pieces: the
behaviour of Python `str.split()` with no separator argument.  `acc` holds
the (reversed) characters of the piece currently being read. -/
def splitWsAux : List Char → List Char → List (List Char)
  | [], acc => if acc = [] then [] else [acc.reverse]
  | c :: cs, acc =>
    if c.isWhitespace then
      if acc = [] then splitWsAux cs []
      else acc.reverse :: splitWsAux cs []
    else splitWsAux cs (c :: acc)

/-- Python `text.split()`. -/
def splitWs (cs : List Char) : List (List Char) := splitWsAux cs []

/-- `tokenize_and_stem(text)`: replace each character of `replaceChars` by a
space, split on whitespace (Python `str.split()` drops empty pieces),
lowercase each piece, drop stopwords, and deduplicate (Python collects
into a `set`). The stopword list is a parameter (see the header note).
Characters are processed through `String.data` so that all operations are
structurally recursive. -/
def tokenize_and_stem (stopwords : List String) (text : String) : List String :=
  let cleaned := text.data.map (fun c => if c ∈ replaceChars then ' ' else c)
  let pieces := splitWs cleaned
  ((pieces.map (fun p => String.mk (p.map Char.toLower))).filter
      (fun t => t ∉ stopwords)).dedup

/-! ### Dictionary embedding and `generate_data` -/

/-- Python `dict` with string keys and integer values. -/
abbrev Dict := List (String × Int)

/-- Key membership test (`k in d`). -/
def dictMem (d : Dict) (k : String) : Bool := d.any (fun kv => kv.1 = k)

/-- Dictionary access `d[k]`; the verified call sites guarantee the key is
present, so the default `0` is never observed. -/
def dictGet (d : Dict) (k : String) : Int :=
  ((d.find? (fun kv => kv.1 = k)).map (fun kv => kv.2)).getD 0

/-- `d[k] += delta` for a present key. -/
def dictBump (d : Dict) (k : String) (delta : Int) : Dict :=
  d.map (fun kv => if kv.1 = k then (kv.1, kv.2 + delta) else kv)

/-- `_filter_dict(d, lower_thresh)`: keep entries with
`lower_thresh <= val <= inf` (the upper bound is `inf` at every call
site, hence always satisfied). -/
def filter_dict (d : Dict) (lower_thresh : Int) : Dict :=
  d.filter (fun kv => lower_thresh ≤ kv.2)

/-- `_make_same_keys(filtered, non_filtered)`: a dict with the keys of
`filtered` and the values of `non_filtered`. -/
def make_same_keys (filtered non_filtered : Dict) : Dict :=
  filtered.map (fun kv => (kv.1, dictGet non_filtered kv.1))

/-- The per-record accumulation loop of `generate_data`: for each token of
the record, initialize `freqs[token] = 1, funding[token] = amount` on
first sight, otherwise `freqs[token] += 1, funding[token] += amount`. -/
def ingestRecord (p : Dict × Dict) (tokens : List String) (amount : Int) :
    Dict × Dict :=
  tokens.foldl
    (fun p token =>
      if dictMem p.1 token then
        (dictBump p.1 token 1, dictBump p.2 token amount)
      else
        (p.1 ++ [(token, 1)], p.2 ++ [(token, amount)]))
    p

/-- `generate_data(df, funding_thresh_hold)`: returns
`(avg_funding, funding, freqs)`. -/
def generate_data (stopwords : List String) (recs : List Record)
    (funding_thresh_hold : Int) : Dict × Dict × Dict :=
  let p := recs.foldl
    (fun p r => ingestRecord p (tokenize_and_stem stopwords r.titel) r.amount)
    ([], [])
  let funding := filter_dict p.2 funding_thresh_hold
  let freqs := make_same_keys funding p.1
  let avg_funding :=
    funding.map (fun kv => (kv.1, Int.fdiv (dictGet funding kv.1) (dictGet freqs kv.1)))
  (avg_funding, funding, freqs)

/-- The key list of a dictionary. -/
def keysOf (d : Dict) : List String := d.map (fun kv => kv.1)

/-! ### Value rescalers

Python `max`/`min` raise `ValueError` on an empty sequence and integer or
float division raises `ZeroDivisionError` on a zero divisor; both failure
modes are embedded as `none`. -/

/-- Python `max(number_list)`. -/
def listMax : List ℚ → Option ℚ
  | [] => none
  | x :: xs => some (xs.foldl max x)

/-- Python `min(number_list)`. -/
def listMin : List ℚ → Option ℚ
  | [] => none
  | x :: xs => some (xs.foldl min x)

/-- `_get_remaining_perc(val)`. -/
def get_remaining_perc (val : ℚ) : ℚ := 100 - val

/-- `_color_scaling(val, new_min, new_max, old_min, old_max)`.  The single
call site uses the defaults `15, 60, 0, 100`, so `old_range = 100 ≠ 0` and
the division never raises. -/
def color_scaling (val new_min new_max old_min old_max : ℚ) : ℚ :=
  let v := get_remaining_perc val
  let old_range := old_max - old_min
  let new_range := new_max - new_min
  ((v - old_min) * new_range) / old_range + new_min

/-- `scale_word_dict(word_dict)`: min-max normalize the values to `[0,100]`
and pass them through `_color_scaling`.  `none` embeds the
`ZeroDivisionError` raised when all values are equal (`max_val = min_val`)
and the `ValueError` raised on an empty dict. -/
def scale_word_dict (word_dict : List (String × ℚ)) :
    Option (List (String × ℚ)) :=
  match listMin (word_dict.map (fun kv => kv.2)),
        listMax (word_dict.map (fun kv => kv.2)) with
  | some min_val, some max_val =>
    if max_val - min_val = 0 then none
    else
      some (word_dict.map (fun kv =>
        (kv.1, color_scaling ((kv.2 - min_val) / (max_val - min_val) * 100)
          15 60 0 100)))
  | _, _ => none

/-- `_cal_percentile(number_list, percentile) = max(number_list) * percentile`. -/
def cal_percentile (number_list : List ℚ) (percentile : ℚ) : Option ℚ :=
  (listMax number_list).map (fun m => m * percentile)

/-- `rescale_to_percentiles(number_list, lowest, median, second_highest,
highest)`: bucket each value by strict comparison against 25%/50%/75% of
the maximum. -/
def rescale_to_percentiles (number_list : List ℚ)
    (lowest median second_highest highest : ℤ) : Option (List ℤ) :=
  match cal_percentile number_list 0.25, cal_percentile number_list 0.50,
        cal_percentile number_list 0.75 with
  | some lowest_25, some lowest_50, some lowest_75 =>
    some (number_list.map (fun val =>
      if val < lowest_25 then lowest
      else if lowest_25 < val ∧ val < lowest_50 then median
      else if lowest_50 < val ∧ val < lowest_75 then second_highest
      else highest))
  | _, _, _ => none

/-- `rescale_to_range(number_list, new_max, new_min)` (note the argument
order of the source: the new maximum comes first).  Each value is mapped
through the linear rescale and `math.ceil`; a zero `old_range` pins the
value to `new_min` before the ceiling. -/
def rescale_to_range (number_list : List ℚ) (new_max new_min : ℤ) :
    Option (List ℤ) :=
  match listMax number_list, listMin number_list with
  | some mx, some mn =>
    let old_range := mx - mn
    let new_range : ℚ := (new_max : ℚ) - (new_min : ℚ)
    some (number_list.map (fun val =>
      if old_range = 0 then ⌈((new_min : ℤ) : ℚ)⌉
      else ⌈(val - mn) * new_range / old_range + (new_min : ℚ)⌉))
  | _, _ => none

/-! ### Graph embedding (`networkx.Graph`)

A `networkx` graph is determined by its node-insertion order, the
per-node attribute dict, and the weighted edge set; neighbor lists are in
edge-insertion order.  We store exactly that: `nodes` in insertion order,
`attrs` as an association list, and `edges` in first-insertion order with
the stored endpoint orientation and the current weight.  Adjacency, the
degree view and the `G.edges()` iteration order are recovered below. -/

structure NodeAttr where
  avg_funding : Int
  funding : Int
  freqs : Int
  total_deg : Nat
deriving DecidableEq, Repr

structure NGraph where
  nodes : List String
  attrs : List (String × NodeAttr)
  edges : List ((String × String) × Nat)
deriving DecidableEq, Repr

def emptyGraph : NGraph := ⟨[], [], []⟩

/-- Unordered equality of endpoint pairs. -/
abbrev PairEq (a b : String × String) : Prop := a = b ∨ a = (b.2, b.1)

/-- Boolean unordered equality of endpoint pairs. -/
def pairBEq (a b : String × String) : Bool :=
  (a.1 == b.1 && a.2 == b.2) || (a.1 == b.2 && a.2 == b.1)

/-- `G.has_edge(u, v)`. -/
def hasEdge (g : NGraph) (u v : String) : Bool :=
  g.edges.any (fun e => pairBEq e.1 (u, v))

/-- `G[u][v]["weight"]`; the default `0` is never observed because the
verified flows only read present edges. -/
def getWeight (g : NGraph) (u v : String) : Nat :=
  ((g.edges.find? (fun e => pairBEq e.1 (u, v))).map
    (fun e => e.2)).getD 0

/-- Insert a node with no attribute change (`networkx` creates missing
endpoints of an added edge this way). -/
def ensureNode (g : NGraph) (v : String) : NGraph :=
  if v ∈ g.nodes then g else { g with nodes := g.nodes ++ [v] }

/-- `G.add_node(v, **attrs)`: insert the node if new, set its attributes. -/
def add_node (g : NGraph) (v : String) (a : NodeAttr) : NGraph :=
  if (ensureNode g v).attrs.any (fun kv => kv.1 = v) then
    { ensureNode g v with attrs := (ensureNode g v).attrs.map (fun kv =>
        if kv.1 = v then (v, a) else kv) }
  else
    { ensureNode g v with attrs := (ensureNode g v).attrs ++ [(v, a)] }

/-- `G.add_edge(u, v, weight = w)`: insert missing endpoints; on an
existing edge `networkx` overwrites the stored weight, otherwise the edge
is appended in insertion order. -/
def add_edge (g : NGraph) (u v : String) (w : Nat) : NGraph :=
  if hasEdge (ensureNode (ensureNode g u) v) u v then
    { ensureNode (ensureNode g u) v with
        edges := (ensureNode (ensureNode g u) v).edges.map (fun e =>
          if pairBEq e.1 (u, v) then (e.1, w) else e) }
  else
    { ensureNode (ensureNode g u) v with
        edges := (ensureNode (ensureNode g u) v).edges ++ [((u, v), w)] }

/-- `G[u][v]["weight"] += 1`. -/
def incWeight (g : NGraph) (u v : String) : NGraph :=
  { g with edges := g.edges.map (fun e =>
      if pairBEq e.1 (u, v) then (e.1, e.2 + 1) else e) }

/-- The repeated
`if G.has_edge(s, t): G[s][t]["weight"] += 1 else: G.add_edge(s, t, weight = 1)`
block of the three builders. -/
def updateEdge (g : NGraph) (u v : String) : NGraph :=
  if hasEdge g u v then incWeight g u v else add_edge g u v 1

/-- The `networkx` adjacency list of `u`: neighbors in edge-insertion
order (a self-loop appears once). -/
def adjOf (g : NGraph) (u : String) : List String :=
  (g.edges.filter (fun e => decide (e.1.1 = u ∨ e.1.2 = u))).map
    (fun e => if e.1.1 = u then e.1.2 else e.1.1)

/-- `G.degree(u)`: neighbor count, with a self-loop counting twice. -/
def degreeOf (g : NGraph) (u : String) : Nat :=
  (adjOf g u).length + (if u ∈ adjOf g u then 1 else 0)

/-- The `G.edges()` iteration: nodes in insertion order; for each node its
adjacency in order, skipping neighbors already fully processed. -/
def edgesAux (g : NGraph) : List String → List String → List (String × String)
  | _, [] => []
  | seen, u :: rest =>
    ((adjOf g u).filter (fun x => decide (x ∉ seen))).map (fun x => (u, x))
      ++ edgesAux g (seen ++ [u]) rest

/-- `list(G.edges())`. -/
def edgesList (g : NGraph) : List (String × String) := edgesAux g [] g.nodes

/-- `G.remove_edges_from(es)`. -/
def removeEdgesFrom (g : NGraph) (es : List (String × String)) : NGraph :=
  { g with edges := g.edges.filter (fun e => decide (¬ ∃ r ∈ es, PairEq e.1 r)) }

/-- `G.remove_nodes_from(list(nx.isolates(G)))`: an isolate is a node with
no neighbors; removing it also drops its attributes and (vacuously) its
incident edges. -/
def removeIsolates (g : NGraph) : NGraph :=
  let iso := g.nodes.filter (fun v => decide (adjOf g v = []))
  { nodes := g.nodes.filter (fun v => decide (v ∉ iso)),
    attrs := g.attrs.filter (fun kv => decide (kv.1 ∉ iso)),
    edges := g.edges.filter (fun e => decide (e.1.1 ∉ iso ∧ e.1.2 ∉ iso)) }

/-- `G.nodes[v]` attribute lookup; nodes of the verified flows always
carry attributes, so the default bundle is never observed. -/
def attrGetD (g : NGraph) (v : String) : NodeAttr :=
  ((g.attrs.find? (fun kv => kv.1 = v)).map (fun kv => kv.2)).getD ⟨0, 0, 0, 0⟩

/-- The `for node, deg in G.degree(): G.nodes[node]["total_deg"] = deg`
loop of the three builders (attributes rebuilt in node order). -/
def setDegrees (g : NGraph) : NGraph :=
  { g with attrs := g.nodes.map (fun v =>
      (v, { attrGetD g v with total_deg := degreeOf g v })) }

/-! ### The three graph builders -/

/-- The attribute bundle
`avg_funding = …, funding = …, freqs = …, total_deg = 0` passed to every
`G.add_node` call of the builders (`t` is the `generate_data` triple). -/
def statsAttr (t : Dict × Dict × Dict) (tok : String) : NodeAttr :=
  ⟨dictGet t.1 tok, dictGet t.2.1 tok, dictGet t.2.2 tok, 0⟩

/-- The aliased inner pair loop shared by `generate_graph_data_words` and
`generate_graph_data_all`: `temp_targ_list = targ_list` binds the same
list object, so `temp_targ_list.remove(s_tok)` permanently removes the
first occurrence of `s_tok` before the inner edge loop. -/
def pairLoop : NGraph → List String → List String → NGraph
  | g, [], _ => g
  | g, s :: rest, targ =>
    let targ1 := targ.erase s
    let g1 := targ1.foldl (fun g t => updateEdge g s t) g
    pairLoop g1 rest targ1

/-- The ordering used by `_sort_tuples`: descending on the second
component (with ties considered "in order", so that a stable sort keeps
the original relative order of equal weights). -/
abbrev weightGE (a b : (String × String) × Nat) : Prop := b.2 ≤ a.2

/-- `_sort_tuples(tuple_list)`: Python
`sorted(tuple_list, key = lambda x: x[1], reverse = True)`, a stable
descending sort on the second component.  Python's `sorted` is stable;
every stable sort produces the same output list, so the stable
`List.insertionSort` embeds it. -/
def sort_tuples (l : List ((String × String) × Nat)) :
    List ((String × String) × Nat) :=
  l.insertionSort weightGE

/-- Python `l[: n]` for `int` n: a negative bound counts from the end. -/
def pySlice {α : Type} (n : Int) (l : List α) : List α :=
  if 0 ≤ n then l.take n.toNat else l.take (l.length - (-n).toNat)

/-- The `(edge, weight)` pairs collected in `G.edges()` order by the
pruning tail of `generate_graph_data_word` / `generate_graph_data_all`. -/
def edgeWeights (g : NGraph) : List ((String × String) × Nat) :=
  (edgesList g).map (fun e => (e, getWeight g e.1 e.2))

/-- `top_n_edges`: the first `top_n − 1` entries of the stable descending
sort of the `(edge, weight)` list. -/
def topEdges (g : NGraph) (top_n : Int) : List (String × String) :=
  (pySlice (top_n - 1) (sort_tuples (edgeWeights g))).map (fun ew => ew.1)

/-- `edges_remove`: every iterated edge not among `top_n_edges`. -/
def edgesRemove (g : NGraph) (top_n : Int) : List (String × String) :=
  (edgesList g).filter
    (fun (e : String × String) => decide (e ∉ topEdges g top_n))

/-- The pruning tail shared by `generate_graph_data_word` and
`generate_graph_data_all`: remove every edge outside the top `top_n − 1`,
then remove isolated nodes. -/
def pruneTop (g : NGraph) (top_n : Int) : NGraph :=
  removeIsolates (removeEdgesFrom g (edgesRemove g top_n))

/-- The construction phase of `generate_graph_data_word`: records whose
title does not contain `word` are skipped; each other record contributes
the edges `(word, t)` for every other token `t` of its title; then the
degree-recording loop runs. -/
def buildCoreWord (stop : List String) (recs : List Record)
    (word : String) : NGraph :=
  let t := generate_data stop recs 0
  recs.foldl
    (fun g r =>
      let tokens := tokenize_and_stem stop r.titel
      if word ∉ tokens then g
      else
        let g1 := add_node g word (statsAttr t word)
        let targ_list := tokens.filter (fun tok => decide (¬ word = tok))
        targ_list.foldl
          (fun g tok => updateEdge (add_node g tok (statsAttr t tok)) word tok)
          g1)
    emptyGraph

/-- `buildCoreWord` followed by the degree-recording loop. -/
def buildGraphWord (stop : List String) (recs : List Record)
    (word : String) : NGraph :=
  setDegrees (buildCoreWord stop recs word)

/-- `generate_graph_data_word(df, word, top_n)` (spring-layout positions
omitted; no claim concerns them). -/
def generate_graph_data_word (stop : List String) (recs : List Record)
    (word : String) (top_n : Int) : NGraph :=
  pruneTop (buildGraphWord stop recs word) top_n

/-- The construction phase of `generate_graph_data_all`: every record
contributes all its token pairs through the aliased pair loop; then the
degree-recording loop runs. -/
def buildCoreAll (stop : List String) (recs : List Record) : NGraph :=
  let t := generate_data stop recs 0
  recs.foldl
    (fun g r =>
      let tokens := tokenize_and_stem stop r.titel
      let g1 := tokens.foldl (fun g s => add_node g s (statsAttr t s)) g
      pairLoop g1 tokens tokens)
    emptyGraph

/-- `buildCoreAll` followed by the degree-recording loop. -/
def buildGraphAll (stop : List String) (recs : List Record) : NGraph :=
  setDegrees (buildCoreAll stop recs)

/-- `generate_graph_data_all(df, top_n)`. -/
def generate_graph_data_all (stop : List String) (recs : List Record)
    (top_n : Int) : NGraph :=
  pruneTop (buildGraphAll stop recs) top_n

/-- The `search_words` accumulation of `generate_graph_data_words`: one
copy of each token per matching entry of `words`. -/
def searchWords (words tokens : List String) : List String :=
  tokens.foldl
    (fun acc token => acc ++ (words.filter (fun w => token = w)).map
      (fun _ => token))
    []

/-- The construction phase of `generate_graph_data_words`: records with at
most one qualifying token are skipped; the rest contribute the complete
pair set of their qualifying tokens through the aliased pair loop. -/
def buildCoreWords (stop : List String) (recs : List Record)
    (words : List String) : NGraph :=
  let t := generate_data stop recs 0
  recs.foldl
    (fun g r =>
      let tokens := tokenize_and_stem stop r.titel
      let sw := searchWords words tokens
      if sw.length ≤ 1 then g
      else
        let g1 := sw.foldl (fun g s => add_node g s (statsAttr t s)) g
        pairLoop g1 sw sw)
    emptyGraph

/-- `buildCoreWords` followed by the degree-recording loop. -/
def buildGraphWords (stop : List String) (recs : List Record)
    (words : List String) : NGraph :=
  setDegrees (buildCoreWords stop recs words)

/-- `generate_graph_data_words(df, words)` (no edge pruning in this
view). -/
def generate_graph_data_words (stop : List String) (recs : List Record)
    (words : List String) : NGraph :=
  buildGraphWords stop recs words

/-- The number of records whose title token set contains both `u` and
`v`. -/
def coCount (stop : List String) (recs : List Record) (u v : String) : Nat :=
  recs.countP (fun r => decide (u ∈ tokenize_and_stem stop r.titel ∧
    v ∈ tokenize_and_stem stop r.titel))

/-! ### Pair counting -/

/-- The number of ordered positions `i < j` of `l` whose pair `(l i, l j)`
is the unordered pair `{u, v}`: the exact multiset of `updateEdge` calls
that `pairLoop g l l` performs on the pair. -/
def pairCnt : List String → String → String → Nat
  | [], _, _ => 0
  | s :: rest, u, v =>
    rest.countP (fun t => pairBEq (s, t) (u, v)) + pairCnt rest u v

/-! ### The edge-list invariant of the builders -/

/-- Invariant of every graph the builders produce: no stored self-loop,
every stored weight positive, and no two entries for the same unordered
pair. -/
def EdgesInv (g : NGraph) : Prop :=
  (∀ e ∈ g.edges, e.1.1 ≠ e.1.2 ∧ 1 ≤ e.2) ∧
  g.edges.Pairwise (fun e1 e2 => ¬ PairEq e1.1 e2.1)

/-! ### The stable descending sort of the edge weights -/

instance instIsTotalWeightGE : IsTotal ((String × String) × Nat) weightGE :=
  ⟨fun a b => le_total b.2 a.2⟩

instance instIsTransWeightGE : IsTrans ((String × String) × Nat) weightGE :=
  ⟨fun _ _ _ h1 h2 => le_trans h2 h1⟩

/-! ### Association-list lemmas -/

theorem keysOf_map_keyPreserving (l : Dict) (g : String × Int → String × Int)
    (hg : ∀ kv, (g kv).1 = kv.1) : keysOf (l.map g) = keysOf l := by
  unfold keysOf
  rw [List.map_map]
  exact List.map_congr_left (fun kv _ => hg kv)

theorem find?_map_keyPreserving (l : Dict) (g : String × Int → String × Int)
    (hg : ∀ kv, (g kv).1 = kv.1) (k : String) :
    List.find? (fun kv => kv.1 = k) (l.map g)
      = (List.find? (fun kv => kv.1 = k) l).map g := by
  induction l with
  | nil => rfl
  | cons a l ih =>
    by_cases h : a.1 = k
    · simp [List.find?_cons, hg, h]
    · simp [List.find?_cons, hg, h, ih]

theorem mem_keysOf_iff (d : Dict) (k : String) :
    k ∈ keysOf d ↔ ∃ kv ∈ d, kv.1 = k := by
  simp [keysOf, List.mem_map]

theorem find?_isSome_of_mem_keys (d : Dict) (k : String) (hk : k ∈ keysOf d) :
    ∃ kv₀, List.find? (fun kv => kv.1 = k) d = some kv₀ ∧ kv₀.1 = k := by
  rcases (mem_keysOf_iff d k).1 hk with ⟨kv, hkv, hkvk⟩
  have hsome : (List.find? (fun kv' => kv'.1 = k) d).isSome := by
    rw [List.find?_isSome]
    exact ⟨kv, hkv, by simp [hkvk]⟩
  rcases Option.isSome_iff_exists.1 hsome with ⟨kv₀, hkv₀⟩
  exact ⟨kv₀, hkv₀, by simpa using List.find?_some hkv₀⟩

/-! ### C4: shared key sets and the average-funding formula -/

theorem generate_data_keys_avg (stop : List String) (recs : List Record)
    (thresh : Int) :
    keysOf (generate_data stop recs thresh).1
      = keysOf (generate_data stop recs thresh).2.1 := by
  simp only [generate_data]
  exact keysOf_map_keyPreserving _ _ (fun kv => rfl)

theorem generate_data_keys_freqs (stop : List String) (recs : List Record)
    (thresh : Int) :
    keysOf (generate_data stop recs thresh).2.2
      = keysOf (generate_data stop recs thresh).2.1 := by
  simp only [generate_data, make_same_keys]
  exact keysOf_map_keyPreserving _ _ (fun kv => rfl)

/-- C4: `generate_data` returns three mappings sharing exactly the same key
set after threshold filtering, and on every key the average funding equals
total funding floor-divided by frequency. -/
theorem C4_generate_data_invariant (stop : List String) (recs : List Record)
    (thresh : Int) :
    keysOf (generate_data stop recs thresh).1
        = keysOf (generate_data stop recs thresh).2.1 ∧
    keysOf (generate_data stop recs thresh).2.2
        = keysOf (generate_data stop recs thresh).2.1 ∧
    ∀ k ∈ keysOf (generate_data stop recs thresh).2.1,
      dictGet (generate_data stop recs thresh).1 k
        = Int.fdiv (dictGet (generate_data stop recs thresh).2.1 k)
            (dictGet (generate_data stop recs thresh).2.2 k) := by
  refine ⟨generate_data_keys_avg stop recs thresh,
          generate_data_keys_freqs stop recs thresh, ?_⟩
  intro k hk
  simp only [generate_data] at hk ⊢
  obtain ⟨kv₀, hkv₀, hkey⟩ := find?_isSome_of_mem_keys _ k hk
  conv_lhs => simp only [dictGet]
  rw [find?_map_keyPreserving _ _ (by intro kv; rfl) k, hkv₀]
  simp [dictGet, hkv₀, hkey]

/-- Witness for C4 at a concrete two-record table. -/
theorem C4_generate_data_invariant_witness :
    dictGet (generate_data [] [⟨"a b", 10⟩, ⟨"a c", 5⟩] 0).1 "a"
      = Int.fdiv (dictGet (generate_data [] [⟨"a b", 10⟩, ⟨"a c", 5⟩] 0).2.1 "a")
          (dictGet (generate_data [] [⟨"a b", 10⟩, ⟨"a c", 5⟩] 0).2.2 "a") :=
  (C4_generate_data_invariant [] [⟨"a b", 10⟩, ⟨"a c", 5⟩] 0).2.2 "a" (by decide)

/-! ### C7: raising the funding threshold shrinks the key set -/

theorem keysOf_filter_dict_mono (d : Dict) (t1 t2 : Int) (h : t1 ≤ t2)
    (k : String) (hk : k ∈ keysOf (filter_dict d t2)) :
    k ∈ keysOf (filter_dict d t1) := by
  rw [mem_keysOf_iff] at hk ⊢
  rcases hk with ⟨kv, hkv, rfl⟩
  simp only [filter_dict, List.mem_filter, decide_eq_true_eq] at hkv
  exact ⟨kv, List.mem_filter.2 ⟨hkv.1, by simpa using le_trans h hkv.2⟩, rfl⟩

/-- C7: for `t1 ≤ t2`, every key surviving `generate_data` at threshold `t2`
also survives at threshold `t1`, in each of the three returned mappings. -/
theorem C7_threshold_monotone (stop : List String) (recs : List Record)
    (t1 t2 : Int) (h : t1 ≤ t2) (k : String) :
    (k ∈ keysOf (generate_data stop recs t2).1 →
        k ∈ keysOf (generate_data stop recs t1).1) ∧
    (k ∈ keysOf (generate_data stop recs t2).2.1 →
        k ∈ keysOf (generate_data stop recs t1).2.1) ∧
    (k ∈ keysOf (generate_data stop recs t2).2.2 →
        k ∈ keysOf (generate_data stop recs t1).2.2) := by
  have core : k ∈ keysOf (generate_data stop recs t2).2.1 →
      k ∈ keysOf (generate_data stop recs t1).2.1 := by
    simp only [generate_data]
    exact keysOf_filter_dict_mono _ t1 t2 h k
  refine ⟨?_, core, ?_⟩
  · rw [generate_data_keys_avg, generate_data_keys_avg]; exact core
  · rw [generate_data_keys_freqs, generate_data_keys_freqs]; exact core

/-- Witness for C7: with thresholds 0 ≤ 12, the word `a` (funding 15)
survives the higher threshold and hence also the lower one. -/
theorem C7_threshold_monotone_witness :
    "a" ∈ keysOf (generate_data [] [⟨"a b", 10⟩, ⟨"a c", 5⟩] 0).2.1 :=
  (C7_threshold_monotone [] [⟨"a b", 10⟩, ⟨"a c", 5⟩] 0 12 (by decide) "a").2.1
    (by decide)

/-! ### C10: the tokenizer contract -/

/-- C10: tokenizing `"Cat, cat CAT!"` with no stopwords yields exactly
`{"cat"}`; in general the result is deduplicated and contains no
stopwords. -/
theorem C10_tokenizer (stopwords : List String) (text : String) :
    tokenize_and_stem [] "Cat, cat CAT!" = ["cat"] ∧
    (tokenize_and_stem stopwords text).Nodup ∧
    ∀ t ∈ tokenize_and_stem stopwords text, t ∉ stopwords := by
  refine ⟨by decide, List.nodup_dedup _, ?_⟩
  intro t ht
  simp only [tokenize_and_stem, List.mem_dedup, List.mem_filter,
    decide_eq_true_eq] at ht
  simpa using ht.2

/-- Witness for C10: `"cat"` is produced from `"Cat!"` and is not in the
active stopword list `["dog"]`. -/
theorem C10_tokenizer_witness : "cat" ∉ ["dog"] :=
  (C10_tokenizer ["dog"] "Cat!").2.2 "cat" (by decide)

/-! ### Bounds lemmas for `listMax`/`listMin` -/

theorem le_foldl_max (l : List ℚ) (x : ℚ) : x ≤ l.foldl max x := by
  induction l generalizing x with
  | nil => exact le_refl x
  | cons a l ih => exact le_trans (le_max_left x a) (ih (max x a))

theorem mem_le_foldl_max (l : List ℚ) (x v : ℚ) (hv : v ∈ l) :
    v ≤ l.foldl max x := by
  induction l generalizing x with
  | nil => cases hv
  | cons a l ih =>
    rcases List.mem_cons.1 hv with rfl | hv'
    · exact le_trans (le_max_right x v) (le_foldl_max l (max x v))
    · exact ih (max x a) hv'

theorem foldl_min_le (l : List ℚ) (x : ℚ) : l.foldl min x ≤ x := by
  induction l generalizing x with
  | nil => exact le_refl x
  | cons a l ih => exact le_trans (ih (min x a)) (min_le_left x a)

theorem foldl_min_le_mem (l : List ℚ) (x v : ℚ) (hv : v ∈ l) :
    l.foldl min x ≤ v := by
  induction l generalizing x with
  | nil => cases hv
  | cons a l ih =>
    rcases List.mem_cons.1 hv with rfl | hv'
    · exact le_trans (foldl_min_le l (min x v)) (min_le_right x v)
    · exact ih (min x a) hv'

theorem le_listMax (l : List ℚ) (mx v : ℚ) (hmx : listMax l = some mx)
    (hv : v ∈ l) : v ≤ mx := by
  cases l with
  | nil => cases hv
  | cons x xs =>
    simp only [listMax, Option.some.injEq] at hmx
    subst hmx
    rcases List.mem_cons.1 hv with rfl | hv'
    · exact le_foldl_max xs v
    · exact mem_le_foldl_max xs x v hv'

theorem listMin_le (l : List ℚ) (mn v : ℚ) (hmn : listMin l = some mn)
    (hv : v ∈ l) : mn ≤ v := by
  cases l with
  | nil => cases hv
  | cons x xs =>
    simp only [listMin, Option.some.injEq] at hmn
    subst hmn
    rcases List.mem_cons.1 hv with rfl | hv'
    · exact foldl_min_le xs v
    · exact foldl_min_le_mem xs x v hv'

/-! ### C2: percentile-bucket boundary behaviour -/

/-- Counterexample to C2 as stated: in `[1, 4]` the value `1` equals the
25%-of-max threshold (`4 * 0.25 = 1`) yet is bucketed into the TOP bucket
(`8`), not the lower of the two adjacent buckets (`2`): every comparison
is strict, so a value equal to a threshold falls through to the final
`else`. -/
theorem C2_percentile_boundary_cex :
    cal_percentile [(1 : ℚ), 4] 0.25 = some 1 ∧
    rescale_to_percentiles [(1 : ℚ), 4] 2 4 6 8 = some [8, 8] := by
  constructor
  · norm_num [cal_percentile, listMax]
  · norm_num [rescale_to_percentiles, cal_percentile, listMax]

/-- C2 (amended): a value exactly equal to the 25%- or 50%-of-max
threshold falls into the TOP bucket (all comparisons are strict, so
threshold values fail every interval test and reach the final `else`);
every value `≥` the 75%-of-max threshold also lands in the top bucket. -/
theorem C2_percentile_boundary (l : List ℚ) (lo m sh hi : ℤ) (mx : ℚ)
    (hmx : listMax l = some mx) (i : ℕ) (h : i < l.length)
    (hcond : l.get ⟨i, h⟩ = mx * 0.25 ∨ l.get ⟨i, h⟩ = mx * 0.50 ∨
      mx * 0.75 ≤ l.get ⟨i, h⟩) :
    ∃ out, rescale_to_percentiles l lo m sh hi = some out ∧
      ∃ h2 : i < out.length, out.get ⟨i, h2⟩ = hi := by
  have hv_le : l.get ⟨i, h⟩ ≤ mx := le_listMax l mx _ hmx (l.get_mem i h)
  have hmx0 : 0 ≤ mx := by
    rcases hcond with h1 | h1 | h1 <;> linarith [hv_le]
  have heq : rescale_to_percentiles l lo m sh hi = some (l.map (fun val =>
      if val < mx * 0.25 then lo
      else if mx * 0.25 < val ∧ val < mx * 0.50 then m
      else if mx * 0.50 < val ∧ val < mx * 0.75 then sh
      else hi)) := by
    simp [rescale_to_percentiles, cal_percentile, hmx]
  refine ⟨_, heq, ?_⟩
  have h2 : i < (l.map (fun val =>
      if val < mx * 0.25 then lo
      else if mx * 0.25 < val ∧ val < mx * 0.50 then m
      else if mx * 0.50 < val ∧ val < mx * 0.75 then sh
      else hi)).length := by simpa using h
  refine ⟨h2, ?_⟩
  rw [List.get_map]
  rcases hcond with h1 | h1 | h1
  · have n1 : ¬ l.get ⟨i, h⟩ < mx * 0.25 := by rw [h1]; exact lt_irrefl _
    have n2 : ¬ (mx * 0.25 < l.get ⟨i, h⟩ ∧ l.get ⟨i, h⟩ < mx * 0.50) := by
      rintro ⟨a, _⟩; rw [h1] at a; exact lt_irrefl _ a
    have n3 : ¬ (mx * 0.50 < l.get ⟨i, h⟩ ∧ l.get ⟨i, h⟩ < mx * 0.75) := by
      rintro ⟨a, _⟩; rw [h1] at a; linarith
    rw [if_neg n1, if_neg n2, if_neg n3]
  · have n1 : ¬ l.get ⟨i, h⟩ < mx * 0.25 := by rw [h1]; intro a; linarith
    have n2 : ¬ (mx * 0.25 < l.get ⟨i, h⟩ ∧ l.get ⟨i, h⟩ < mx * 0.50) := by
      rintro ⟨_, a⟩; rw [h1] at a; exact lt_irrefl _ a
    have n3 : ¬ (mx * 0.50 < l.get ⟨i, h⟩ ∧ l.get ⟨i, h⟩ < mx * 0.75) := by
      rintro ⟨a, _⟩; rw [h1] at a; exact lt_irrefl _ a
    rw [if_neg n1, if_neg n2, if_neg n3]
  · have n1 : ¬ l.get ⟨i, h⟩ < mx * 0.25 := by intro a; linarith
    have n2 : ¬ (mx * 0.25 < l.get ⟨i, h⟩ ∧ l.get ⟨i, h⟩ < mx * 0.50) := by
      rintro ⟨_, a⟩; linarith
    have n3 : ¬ (mx * 0.50 < l.get ⟨i, h⟩ ∧ l.get ⟨i, h⟩ < mx * 0.75) := by
      rintro ⟨_, a⟩; linarith
    rw [if_neg n1, if_neg n2, if_neg n3]

/-- Witness for the amended C2 at `l = [1, 4]`, `i = 0`: the value `1`
equals the 25% threshold and receives the top-bucket label `8`. -/
theorem C2_percentile_boundary_witness :
    ∃ out, rescale_to_percentiles [(1 : ℚ), 4] 2 4 6 8 = some out ∧
      ∃ h2 : 0 < out.length, out.get ⟨0, h2⟩ = 8 :=
  C2_percentile_boundary [(1 : ℚ), 4] 2 4 6 8 4 (by norm_num [listMax]) 0
    (by norm_num) (Or.inl (by norm_num))

/-! ### C3: totality of the rescaling transforms -/

/-- Counterexample to C3 as stated: on the non-empty constant mapping
`{"a": 5}` the color intensity scale divides by `max - min = 0` and
raises (`none`); it is not total on every non-empty mapping. -/
theorem C3_total_cex : scale_word_dict [("a", (5 : ℚ))] = none := by
  norm_num [scale_word_dict, listMin, listMax]

/-- C3 (amended): the linear rescale and the percentile bucket transform
are total on every non-empty list; the color intensity scale is total on
every mapping whose values contain at least two distinct elements
(`min < max`), and only fails on empty or constant-valued mappings. -/
theorem C3_rescalers_total (l : List ℚ) (hl : l ≠ [])
    (nmax nmin lo m sh hi : ℤ) (d : List (String × ℚ)) (mn mx : ℚ)
    (hmn : listMin (d.map (fun kv => kv.2)) = some mn)
    (hmx : listMax (d.map (fun kv => kv.2)) = some mx) (hlt : mn < mx) :
    (rescale_to_range l nmax nmin).isSome ∧
    (rescale_to_percentiles l lo m sh hi).isSome ∧
    (scale_word_dict d).isSome := by
  obtain ⟨x, xs, rfl⟩ := List.exists_cons_of_ne_nil hl
  refine ⟨?_, ?_, ?_⟩
  · simp [rescale_to_range, listMax, listMin]
  · simp [rescale_to_percentiles, cal_percentile, listMax]
  · simp only [scale_word_dict, hmn, hmx]
    rw [if_neg (sub_ne_zero.2 (ne_of_gt hlt))]
    simp

/-- Witness for the amended C3 at `l = [3]` and `d = {"a": 1, "b": 3}`. -/
theorem C3_rescalers_total_witness :
    (rescale_to_range [(3 : ℚ)] 10 1).isSome ∧
    (rescale_to_percentiles [(3 : ℚ)] 2 4 6 8).isSome ∧
    (scale_word_dict [("a", (1 : ℚ)), ("b", 3)]).isSome :=
  C3_rescalers_total [(3 : ℚ)] (by simp) 10 1 2 4 6 8
    [("a", (1 : ℚ)), ("b", 3)] 1 3 (by norm_num [listMin])
    (by norm_num [listMax]) (by norm_num)

/-! ### C8: the linear rescale formula -/

/-- C8: each output of `rescale_to_range` is the ceiling of the linear map
sending `min(values)` to `new_min` and `max(values)` to `new_max`; when
all values are equal every output is `new_min`; in particular rescaling
`[5, 5, 5]` into `new_min = 1, new_max = 10` yields `[1, 1, 1]`. -/
theorem C8_rescale_linear (l : List ℚ) (nmax nmin : ℤ) (mx mn : ℚ)
    (hmx : listMax l = some mx) (hmn : listMin l = some mn) :
    rescale_to_range l nmax nmin
        = some (l.map (fun v =>
            if mx - mn = 0 then nmin
            else ⌈(nmin : ℚ) + (v - mn) * ((nmax : ℚ) - (nmin : ℚ)) / (mx - mn)⌉)) ∧
    rescale_to_range [5, 5, 5] 10 1 = some [1, 1, 1] := by
  constructor
  · simp only [rescale_to_range, hmx, hmn]
    refine congrArg some (List.map_congr_left ?_)
    intro v _
    by_cases hr : mx - mn = 0
    · rw [if_pos hr, if_pos hr, Int.ceil_intCast]
    · rw [if_neg hr, if_neg hr]
      congr 1
      ring
  · norm_num [rescale_to_range, listMax, listMin]

/-- Witness for C8 at `l = [1, 2]`, `new_max = 10`, `new_min = 0`. -/
theorem C8_rescale_linear_witness :
    rescale_to_range [(1 : ℚ), 2] 10 0
        = some ([(1 : ℚ), 2].map (fun v =>
            if (2 : ℚ) - 1 = 0 then (0 : ℤ)
            else ⌈((0 : ℤ) : ℚ) + (v - 1) * (((10 : ℤ) : ℚ) - ((0 : ℤ) : ℚ)) / ((2 : ℚ) - 1)⌉)) :=
  (C8_rescale_linear [(1 : ℚ), 2] 10 0 2 1 (by norm_num [listMax])
    (by norm_num [listMin])).1

/-! ### C9: the color intensity scale -/

/-- C9: with at least two distinct values, `scale_word_dict` succeeds,
preserves keys pointwise, sends the maximum value exactly to `15` and the
minimum exactly to `60`, and is strictly decreasing in the input value. -/
theorem C9_color_scale (d : List (String × ℚ)) (mn mx : ℚ)
    (hmn : listMin (d.map (fun kv => kv.2)) = some mn)
    (hmx : listMax (d.map (fun kv => kv.2)) = some mx)
    (hlt : mn < mx) :
    ∃ out, scale_word_dict d = some out ∧ out.length = d.length ∧
      ∀ i (hi : i < d.length) (hi2 : i < out.length),
        (out.get ⟨i, hi2⟩).1 = (d.get ⟨i, hi⟩).1 ∧
        ((d.get ⟨i, hi⟩).2 = mx → (out.get ⟨i, hi2⟩).2 = 15) ∧
        ((d.get ⟨i, hi⟩).2 = mn → (out.get ⟨i, hi2⟩).2 = 60) ∧
        ∀ j (hj : j < d.length) (hj2 : j < out.length),
          (d.get ⟨i, hi⟩).2 < (d.get ⟨j, hj⟩).2 →
            (out.get ⟨j, hj2⟩).2 < (out.get ⟨i, hi2⟩).2 := by
  have hne : mx - mn ≠ 0 := sub_ne_zero.2 (ne_of_gt hlt)
  have hpos : (0 : ℚ) < mx - mn := sub_pos.2 hlt
  have heq : scale_word_dict d = some (d.map (fun kv =>
      (kv.1, color_scaling ((kv.2 - mn) / (mx - mn) * 100) 15 60 0 100))) := by
    simp only [scale_word_dict, hmn, hmx]
    rw [if_neg hne]
  refine ⟨_, heq, by simp, ?_⟩
  intro i hi hi2
  rw [List.get_map]
  refine ⟨rfl, ?_, ?_, ?_⟩
  · intro hv
    simp only [color_scaling, get_remaining_perc, hv]
    rw [div_self hne]
    norm_num
  · intro hv
    simp only [color_scaling, get_remaining_perc, hv]
    norm_num
  · intro j hj hj2 hlt2
    rw [List.get_map]
    simp only [color_scaling, get_remaining_perc]
    have hz : (d.get ⟨i, hi⟩).2 - mn < (d.get ⟨j, hj⟩).2 - mn := by linarith
    have hz2 : ((d.get ⟨i, hi⟩).2 - mn) / (mx - mn)
        < ((d.get ⟨j, hj⟩).2 - mn) / (mx - mn) := by gcongr
    linarith

/-- Witness for C9 at `d = {"a": 1, "b": 3}`. -/
theorem C9_color_scale_witness :
    ∃ out, scale_word_dict [("a", (1 : ℚ)), ("b", 3)] = some out ∧
      out.length = [("a", (1 : ℚ)), ("b", 3)].length ∧
      ∀ i (hi : i < [("a", (1 : ℚ)), ("b", 3)].length) (hi2 : i < out.length),
        (out.get ⟨i, hi2⟩).1 = ([("a", (1 : ℚ)), ("b", 3)].get ⟨i, hi⟩).1 ∧
        (([("a", (1 : ℚ)), ("b", 3)].get ⟨i, hi⟩).2 = 3 →
          (out.get ⟨i, hi2⟩).2 = 15) ∧
        (([("a", (1 : ℚ)), ("b", 3)].get ⟨i, hi⟩).2 = 1 →
          (out.get ⟨i, hi2⟩).2 = 60) ∧
        ∀ j (hj : j < [("a", (1 : ℚ)), ("b", 3)].length) (hj2 : j < out.length),
          (([("a", (1 : ℚ)), ("b", 3)].get ⟨i, hi⟩).2
              < ([("a", (1 : ℚ)), ("b", 3)].get ⟨j, hj⟩).2 →
            (out.get ⟨j, hj2⟩).2 < (out.get ⟨i, hi2⟩).2) :=
  C9_color_scale [("a", (1 : ℚ)), ("b", 3)] 1 3 (by norm_num [listMin])
    (by norm_num [listMax]) (by norm_num)

/-! ### PairEq and edge-weight step lemmas -/

theorem pairEq_refl (a : String × String) : PairEq a a := Or.inl rfl

theorem pairEq_symm {a b : String × String} (h : PairEq a b) : PairEq b a := by
  rcases h with rfl | h
  · exact Or.inl rfl
  · rw [h]
    exact Or.inr rfl

theorem pairEq_trans {a b c : String × String} (h1 : PairEq a b)
    (h2 : PairEq b c) : PairEq a c := by
  rcases h1 with rfl | h1
  · exact h2
  · rcases h2 with rfl | h2
    · rw [h1]
      exact Or.inr rfl
    · rw [h1, h2]
      exact Or.inl rfl

theorem pairBEq_iff (a b : String × String) : pairBEq a b = true ↔ PairEq a b := by
  unfold pairBEq PairEq
  constructor
  · intro h
    rcases Bool.or_eq_true_iff.1 h with h | h <;>
      rcases Bool.and_eq_true_iff.1 h with ⟨h1, h2⟩
    · exact Or.inl (Prod.ext (eq_of_beq h1) (eq_of_beq h2))
    · exact Or.inr (Prod.ext (eq_of_beq h1) (eq_of_beq h2))
  · intro h
    rcases h with h | h <;> rw [h] <;> simp

theorem pairBEq_true_of (a b : String × String) (h : PairEq a b) :
    pairBEq a b = true := (pairBEq_iff a b).2 h

theorem pairBEq_false_of (a b : String × String) (h : ¬ PairEq a b) :
    pairBEq a b = false :=
  Bool.eq_false_iff.2 (fun hc => h ((pairBEq_iff a b).1 hc))

theorem edges_ensureNode (g : NGraph) (v : String) :
    (ensureNode g v).edges = g.edges := by
  unfold ensureNode
  split <;> rfl

theorem attrs_ensureNode (g : NGraph) (v : String) :
    (ensureNode g v).attrs = g.attrs := by
  unfold ensureNode
  split <;> rfl

theorem edges_add_node (g : NGraph) (v : String) (a : NodeAttr) :
    (add_node g v a).edges = g.edges := by
  unfold add_node
  split <;> simp [edges_ensureNode]

theorem hasEdge_ensureNode (g : NGraph) (x u v : String) :
    hasEdge (ensureNode g x) u v = hasEdge g u v := by
  unfold hasEdge
  rw [edges_ensureNode]

theorem hasEdge_iff_exists (g : NGraph) (u v : String) :
    hasEdge g u v = true ↔ ∃ en ∈ g.edges, PairEq en.1 (u, v) := by
  unfold hasEdge
  rw [List.any_eq_true]
  constructor
  · rintro ⟨en, hen, hp⟩
    exact ⟨en, hen, (pairBEq_iff _ _).1 hp⟩
  · rintro ⟨en, hen, hp⟩
    exact ⟨en, hen, pairBEq_true_of _ _ hp⟩

theorem hasEdge_congr (g : NGraph) {u v x y : String}
    (h : PairEq (u, v) (x, y)) : hasEdge g u v = hasEdge g x y := by
  unfold hasEdge
  congr 1
  funext e
  by_cases hp : PairEq e.1 (u, v)
  · rw [pairBEq_true_of _ _ hp, pairBEq_true_of _ _ (pairEq_trans hp h)]
  · rw [pairBEq_false_of _ _ hp,
      pairBEq_false_of _ _ (fun hc => hp (pairEq_trans hc (pairEq_symm h)))]

/-- `find?`-level effect of the weight-increment map when the searched
pair matches the incremented pair. -/
theorem find?_incMap_of_pairEq (l : List ((String × String) × Nat))
    {s t u v : String} (hpe : PairEq (s, t) (u, v)) :
    (l.map (fun e => if pairBEq e.1 (s, t) then (e.1, e.2 + 1) else e)).find?
        (fun e => pairBEq e.1 (u, v))
      = (l.find? (fun e => pairBEq e.1 (u, v))).map
          (fun e => (e.1, e.2 + 1)) := by
  induction l with
  | nil => rfl
  | cons a l ih =>
    by_cases hP : PairEq a.1 (u, v)
    · have hS : PairEq a.1 (s, t) := pairEq_trans hP (pairEq_symm hpe)
      have hbP : pairBEq a.1 (u, v) = true := pairBEq_true_of _ _ hP
      have hbS : pairBEq a.1 (s, t) = true := pairBEq_true_of _ _ hS
      simp [List.find?_cons, hbP, hbS]
    · have hS : ¬ PairEq a.1 (s, t) := fun hS => hP (pairEq_trans hS hpe)
      have hbP : pairBEq a.1 (u, v) = false := pairBEq_false_of _ _ hP
      have hbS : pairBEq a.1 (s, t) = false := pairBEq_false_of _ _ hS
      simp [List.find?_cons, hbP, hbS, ih]

/-- `find?`-level effect of the weight-increment map when the searched
pair differs from the incremented pair. -/
theorem find?_incMap_of_not_pairEq (l : List ((String × String) × Nat))
    {s t u v : String} (hpe : ¬ PairEq (s, t) (u, v)) :
    (l.map (fun e => if pairBEq e.1 (s, t) then (e.1, e.2 + 1) else e)).find?
        (fun e => pairBEq e.1 (u, v))
      = l.find? (fun e => pairBEq e.1 (u, v)) := by
  induction l with
  | nil => rfl
  | cons a l ih =>
    by_cases hP : PairEq a.1 (u, v)
    · have hS : ¬ PairEq a.1 (s, t) := fun hS =>
        hpe (pairEq_trans (pairEq_symm hS) hP)
      have hbP : pairBEq a.1 (u, v) = true := pairBEq_true_of _ _ hP
      have hbS : pairBEq a.1 (s, t) = false := pairBEq_false_of _ _ hS
      simp [List.find?_cons, hbP, hbS]
    · have hbP : pairBEq a.1 (u, v) = false := pairBEq_false_of _ _ hP
      by_cases hS : PairEq a.1 (s, t)
      · have hbS : pairBEq a.1 (s, t) = true := pairBEq_true_of _ _ hS
        simp [List.find?_cons, hbP, hbS, ih]
      · have hbS : pairBEq a.1 (s, t) = false := pairBEq_false_of _ _ hS
        simp [List.find?_cons, hbP, hbS, ih]

theorem getWeight_incWeight (g : NGraph) (s t u v : String) :
    getWeight (incWeight g s t) u v
      = if PairEq (s, t) (u, v) then
          ((g.edges.find? (fun e => pairBEq e.1 (u, v))).map
            (fun e => e.2 + 1)).getD 0
        else getWeight g u v := by
  unfold incWeight getWeight
  by_cases hpe : PairEq (s, t) (u, v)
  · rw [if_pos hpe]
    simp only
    rw [find?_incMap_of_pairEq _ hpe]
    cases g.edges.find? (fun e => pairBEq e.1 (u, v)) <;> rfl
  · rw [if_neg hpe]
    simp only
    rw [find?_incMap_of_not_pairEq _ hpe]

theorem getWeight_updateEdge (g : NGraph) (s t u v : String) :
    getWeight (updateEdge g s t) u v
      = getWeight g u v + (if PairEq (s, t) (u, v) then 1 else 0) := by
  unfold updateEdge
  by_cases he : hasEdge g s t = true
  · rw [if_pos he, getWeight_incWeight]
    by_cases hpe : PairEq (s, t) (u, v)
    · have hEuv : hasEdge g u v = true := by rw [← hasEdge_congr g hpe]; exact he
      obtain ⟨en, hen, hpen⟩ := (hasEdge_iff_exists g u v).1 hEuv
      have hsome : (g.edges.find? (fun e => pairBEq e.1 (u, v))).isSome :=
        List.find?_isSome.2 ⟨en, hen, pairBEq_true_of _ _ hpen⟩
      obtain ⟨en2, hen2⟩ := Option.isSome_iff_exists.1 hsome
      rw [if_pos hpe, if_pos hpe]
      unfold getWeight
      rw [hen2]
      rfl
    · rw [if_neg hpe, if_neg hpe]
      omega
  · rw [if_neg he]
    unfold add_edge
    have he1 : hasEdge (ensureNode (ensureNode g s) t) s t = hasEdge g s t := by
      rw [hasEdge_ensureNode, hasEdge_ensureNode]
    rw [if_neg (by rw [he1]; exact he)]
    unfold getWeight
    simp only [edges_ensureNode]
    rw [List.find?_append]
    by_cases hpe : PairEq (s, t) (u, v)
    · have hnone : g.edges.find? (fun e => pairBEq e.1 (u, v)) = none := by
        rw [List.find?_eq_none]
        intro en hen hp
        exact absurd ((hasEdge_iff_exists g s t).2
          ⟨en, hen, pairEq_trans ((pairBEq_iff _ _).1 hp) (pairEq_symm hpe)⟩) he
      rw [hnone, if_pos hpe]
      have hfind : List.find? (fun e => pairBEq e.1 (u, v)) [((s, t), 1)]
          = some ((s, t), 1) := by
        simp [List.find?_cons, pairBEq_true_of _ _ hpe]
      rw [hfind]
      rfl
    · rw [if_neg hpe]
      have hsingle :
          ([((s, t), 1)].find? (fun e => pairBEq e.1 (u, v))) = none := by
        rw [List.find?_cons_of_neg _ ?hneg]
        · rfl
        case hneg =>
          rw [pairBEq_false_of _ _ hpe]
          exact Bool.false_ne_true
      rw [hsingle]
      cases g.edges.find? (fun e => pairBEq e.1 (u, v)) <;> simp

/-- `getWeight` only reads the edge list, which `add_node` preserves. -/
theorem getWeight_add_node (g : NGraph) (x : String) (a : NodeAttr)
    (u v : String) : getWeight (add_node g x a) u v = getWeight g u v := by
  unfold getWeight
  rw [edges_add_node]

theorem getWeight_foldl_updateEdge (s : String) (ts : List String)
    (g : NGraph) (u v : String) :
    getWeight (ts.foldl (fun g t => updateEdge g s t) g) u v
      = getWeight g u v + ts.countP (fun t => pairBEq (s, t) (u, v)) := by
  induction ts generalizing g with
  | nil => simp
  | cons t ts ih =>
    rw [List.foldl_cons, ih, getWeight_updateEdge, List.countP_cons]
    by_cases hpe : PairEq (s, t) (u, v)
    · rw [if_pos hpe, pairBEq_true_of _ _ hpe]
      simp
      omega
    · rw [if_neg hpe, pairBEq_false_of _ _ hpe]
      simp

theorem edges_foldl_add_node (F : String → NodeAttr) (ts : List String)
    (g : NGraph) :
    (ts.foldl (fun g s => add_node g s (F s)) g).edges = g.edges := by
  induction ts generalizing g with
  | nil => rfl
  | cons t ts ih => rw [List.foldl_cons, ih, edges_add_node]

theorem getWeight_foldl_add_node (F : String → NodeAttr) (ts : List String)
    (g : NGraph) (u v : String) :
    getWeight (ts.foldl (fun g s => add_node g s (F s)) g) u v
      = getWeight g u v := by
  unfold getWeight
  rw [edges_foldl_add_node]

theorem getWeight_foldl_egoEdge (word : String) (F : String → NodeAttr)
    (ts : List String) (g : NGraph) (u v : String) :
    getWeight (ts.foldl
        (fun g tok => updateEdge (add_node g tok (F tok)) word tok) g) u v
      = getWeight g u v + ts.countP (fun tok => pairBEq (word, tok) (u, v)) := by
  induction ts generalizing g with
  | nil => simp
  | cons t ts ih =>
    rw [List.foldl_cons, ih, getWeight_updateEdge, getWeight_add_node,
      List.countP_cons]
    by_cases hpe : PairEq (word, t) (u, v)
    · rw [if_pos hpe, pairBEq_true_of _ _ hpe]
      simp
      omega
    · rw [if_neg hpe, pairBEq_false_of _ _ hpe]
      simp

theorem getWeight_pairLoop (l : List String) (g : NGraph) (u v : String) :
    getWeight (pairLoop g l l) u v = getWeight g u v + pairCnt l u v := by
  induction l generalizing g with
  | nil => simp [pairLoop, pairCnt]
  | cons s rest ih =>
    show getWeight
        (pairLoop (((s :: rest).erase s).foldl (fun g t => updateEdge g s t) g)
          rest ((s :: rest).erase s)) u v = _
    rw [List.erase_cons_head, ih, getWeight_foldl_updateEdge]
    have hc : pairCnt (s :: rest) u v
        = rest.countP (fun t => pairBEq (s, t) (u, v)) + pairCnt rest u v := rfl
    rw [hc]
    omega

theorem countP_eq_ite_mem (rest : List String) (hnd : rest.Nodup) (x : String)
    (p : String → Bool) (hp : ∀ t, p t = true ↔ t = x) :
    rest.countP p = if x ∈ rest then 1 else 0 := by
  induction rest with
  | nil => simp
  | cons a l ih =>
    rcases List.nodup_cons.1 hnd with ⟨ha, hl⟩
    rw [List.countP_cons]
    by_cases hax : a = x
    · subst hax
      rw [ih hl, (hp a).2 rfl]
      simp [ha]
    · have hpa : p a = false :=
        Bool.eq_false_iff.2 (fun hc => hax ((hp a).1 hc))
      rw [ih hl, hpa]
      have hxa : ¬ x = a := fun h => hax h.symm
      simp [List.mem_cons, hxa]

theorem pairCnt_self (l : List String) (hl : l.Nodup) (u : String) :
    pairCnt l u u = 0 := by
  induction l with
  | nil => rfl
  | cons s rest ih =>
    rcases List.nodup_cons.1 hl with ⟨hs, hrest⟩
    unfold pairCnt
    rw [ih hrest, List.countP_eq_zero.2, Nat.add_zero]
    intro t ht hc
    rcases (pairBEq_iff _ _).1 hc with h | h
    · rw [Prod.ext_iff] at h
      obtain ⟨h1, h2⟩ := h
      simp only at h1 h2
      exact hs (h1 ▸ h2 ▸ ht)
    · rw [Prod.ext_iff] at h
      obtain ⟨h1, h2⟩ := h
      simp only at h1 h2
      exact hs (h1 ▸ h2 ▸ ht)

theorem pairCnt_nodup (l : List String) (hl : l.Nodup) (u v : String) :
    pairCnt l u v = if u ≠ v ∧ u ∈ l ∧ v ∈ l then 1 else 0 := by
  by_cases huv : u = v
  · subst huv
    rw [pairCnt_self l hl u]
    simp
  · induction l with
    | nil => simp [pairCnt]
    | cons s rest ih =>
      rcases List.nodup_cons.1 hl with ⟨hs, hrest⟩
      have hc : pairCnt (s :: rest) u v
          = rest.countP (fun t => pairBEq (s, t) (u, v)) + pairCnt rest u v :=
        rfl
      rw [hc, ih hrest]
      by_cases hsu : s = u
      · subst hsu
        rw [countP_eq_ite_mem rest hrest v _ ?hpred]
        case hpred =>
          intro t
          rw [pairBEq_iff]
          constructor
          · rintro (h | h) <;> rw [Prod.ext_iff] at h <;>
              obtain ⟨h1, h2⟩ := h <;> simp only at h1 h2
            · exact h2
            · exact absurd h1 huv
          · rintro rfl
            exact Or.inl rfl
        have hvs : ¬ v = s := fun h => huv h.symm
        have h2zero : (if s ≠ v ∧ s ∈ rest ∧ v ∈ rest then 1 else 0) = 0 := by
          simp [hs]
        rw [h2zero, Nat.add_zero]
        have hcond : (s ≠ v ∧ s ∈ s :: rest ∧ v ∈ s :: rest) ↔ (v ∈ rest) := by
          simp [List.mem_cons, huv, hvs]
        rw [if_congr hcond rfl rfl]
      · by_cases hsv : s = v
        · subst hsv
          rw [countP_eq_ite_mem rest hrest u _ ?hpred2]
          case hpred2 =>
            intro t
            rw [pairBEq_iff]
            constructor
            · rintro (h | h) <;> rw [Prod.ext_iff] at h <;>
                obtain ⟨h1, h2⟩ := h <;> simp only at h1 h2
              · exact absurd h1 hsu
              · exact h2
            · rintro rfl
              exact Or.inr rfl
          have hus : ¬ u = s := huv
          have h2zero : (if u ≠ s ∧ u ∈ rest ∧ s ∈ rest then 1 else 0) = 0 := by
            simp [hs]
          rw [h2zero, Nat.add_zero]
          have hcond : (u ≠ s ∧ u ∈ s :: rest ∧ s ∈ s :: rest) ↔ (u ∈ rest) := by
            simp [List.mem_cons, huv, hus]
          rw [if_congr hcond rfl rfl]
        · rw [List.countP_eq_zero.2 ?hzero, Nat.zero_add]
          case hzero =>
            intro t ht hcc
            rcases (pairBEq_iff _ _).1 hcc with h | h <;>
              rw [Prod.ext_iff] at h <;> obtain ⟨h1, h2⟩ := h <;>
              simp only at h1 h2
            · exact hsu h1
            · exact hsv h1
          have hus : ¬ u = s := fun h => hsu h.symm
          have hvs : ¬ v = s := fun h => hsv h.symm
          have hcond : (u ≠ v ∧ u ∈ s :: rest ∧ v ∈ s :: rest)
              ↔ (u ≠ v ∧ u ∈ rest ∧ v ∈ rest) := by
            simp [List.mem_cons, hus, hvs]
          rw [if_congr hcond rfl rfl]

/-! ### `search_words` characterization and the tokenizer's dedup -/

theorem tokenize_nodup (stop : List String) (text : String) :
    (tokenize_and_stem stop text).Nodup := List.nodup_dedup _

theorem filter_map_eq_single (words : List String) (hw : words.Nodup)
    (tk : String) (htk : tk ∈ words) :
    (words.filter (fun w => decide (tk = w))).map (fun _ => tk) = [tk] := by
  induction words with
  | nil => cases htk
  | cons a l ih =>
    rcases List.nodup_cons.1 hw with ⟨ha, hl⟩
    rw [List.filter_cons]
    by_cases hta : tk = a
    · rw [if_pos (decide_eq_true hta)]
      have hnil : (l.filter (fun w => decide (tk = w))) = [] :=
        List.filter_eq_nil.2 (fun w hwl hc => ha (hta ▸ (of_decide_eq_true hc) ▸ hwl))
      rw [hnil]
      rfl
    · rw [if_neg (by rw [decide_eq_false hta]; exact Bool.false_ne_true)]
      rcases List.mem_cons.1 htk with h | h
      · exact absurd h hta
      · exact ih hl h

theorem searchWords_eq (words tokens : List String) (hw : words.Nodup) :
    searchWords words tokens = tokens.filter (fun t => decide (t ∈ words)) := by
  unfold searchWords
  suffices h : ∀ acc, tokens.foldl
      (fun acc token => acc ++ (words.filter (fun w => token = w)).map
        (fun _ => token)) acc
      = acc ++ tokens.filter (fun t => decide (t ∈ words)) by
    simpa using h []
  induction tokens with
  | nil => intro acc; simp
  | cons tk ts ih =>
    intro acc
    rw [List.foldl_cons, ih, List.filter_cons]
    by_cases htk : tk ∈ words
    · rw [filter_map_eq_single words hw tk htk,
        if_pos (decide_eq_true htk)]
      simp
    · have hnil : (words.filter (fun w => decide (tk = w))) = [] :=
        List.filter_eq_nil.2
          (fun w hwl hc => htk ((of_decide_eq_true hc) ▸ hwl))
      rw [hnil, if_neg (by rw [decide_eq_false htk]; exact Bool.false_ne_true)]
      simp

theorem mem_searchWords (words tokens : List String) (hw : words.Nodup)
    (x : String) : x ∈ searchWords words tokens ↔ x ∈ tokens ∧ x ∈ words := by
  rw [searchWords_eq _ _ hw]
  simp [List.mem_filter]

theorem searchWords_nodup (words tokens : List String) (hw : words.Nodup)
    (ht : tokens.Nodup) : (searchWords words tokens).Nodup := by
  rw [searchWords_eq _ _ hw]
  exact ht.filter _

theorem two_le_length_of_two_mem (l : List String) (x y : String)
    (hx : x ∈ l) (hy : y ∈ l) (hxy : x ≠ y) : 2 ≤ l.length := by
  match l with
  | [] => cases hx
  | [a] =>
    rcases List.mem_singleton.1 hx with rfl
    rcases List.mem_singleton.1 hy with rfl
    exact absurd rfl hxy
  | a :: b :: t => simp [List.length_cons]

/-! ### The per-builder edge-weight formulas -/

theorem getWeight_allFold (stop : List String) (t : Dict × Dict × Dict)
    (recs : List Record) (g : NGraph) (u v : String) :
    getWeight (recs.foldl
        (fun g r =>
          let tokens := tokenize_and_stem stop r.titel
          let g1 := tokens.foldl (fun g s => add_node g s (statsAttr t s)) g
          pairLoop g1 tokens tokens) g) u v
      = getWeight g u v + (if u ≠ v then coCount stop recs u v else 0) := by
  induction recs generalizing g with
  | nil => simp [coCount]
  | cons r rs ih =>
    rw [List.foldl_cons, ih]
    simp only []
    rw [getWeight_pairLoop, getWeight_foldl_add_node,
      pairCnt_nodup _ (tokenize_nodup stop r.titel) u v]
    unfold coCount
    rw [List.countP_cons]
    by_cases huv : u = v
    · simp [huv]
    · by_cases hb : (u ∈ tokenize_and_stem stop r.titel ∧
          v ∈ tokenize_and_stem stop r.titel)
      · rw [if_pos (And.intro huv hb), if_pos huv, if_pos huv,
          if_pos (decide_eq_true hb)]
        omega
      · rw [if_neg (fun hAll => hb hAll.2), if_pos huv, if_pos huv,
          if_neg (fun hc => hb (of_decide_eq_true hc))]
        omega

theorem getWeight_wordFold (stop : List String) (t : Dict × Dict × Dict)
    (word : String) (recs : List Record) (g : NGraph) (u v : String) :
    getWeight (recs.foldl
        (fun g r =>
          let tokens := tokenize_and_stem stop r.titel
          if word ∉ tokens then g
          else
            let g1 := add_node g word (statsAttr t word)
            let targ_list := tokens.filter (fun tok => decide (¬ word = tok))
            targ_list.foldl
              (fun g tok => updateEdge (add_node g tok (statsAttr t tok)) word tok)
              g1) g) u v
      = getWeight g u v
        + (if u ≠ v ∧ (u = word ∨ v = word) then coCount stop recs u v else 0) := by
  induction recs generalizing g with
  | nil => simp [coCount]
  | cons r rs ih =>
    rw [List.foldl_cons, ih]
    simp only []
    unfold coCount
    rw [List.countP_cons]
    by_cases hwtok : word ∉ tokenize_and_stem stop r.titel
    · rw [if_pos hwtok]
      by_cases hcond : u ≠ v ∧ (u = word ∨ v = word)
      · have hpr : ¬ (u ∈ tokenize_and_stem stop r.titel ∧
            v ∈ tokenize_and_stem stop r.titel) := by
          rintro ⟨hu, hv⟩
          rcases hcond.2 with h | h
          · exact hwtok (h ▸ hu)
          · exact hwtok (h ▸ hv)
        rw [if_pos hcond, if_pos hcond,
          if_neg (fun hc => hpr (of_decide_eq_true hc))]
        omega
      · rw [if_neg hcond, if_neg hcond]
    · rw [if_neg hwtok]
      have hword : word ∈ tokenize_and_stem stop r.titel := not_not.1 hwtok
      rw [getWeight_foldl_egoEdge, getWeight_add_node]
      have hnd : (tokenize_and_stem stop r.titel).filter
          (fun tok => decide (¬ word = tok)) |>.Nodup :=
        (tokenize_nodup stop r.titel).filter _
      by_cases huv : u = v
      · have hC : ((tokenize_and_stem stop r.titel).filter
            (fun tok => decide (¬ word = tok))).countP
              (fun tok => pairBEq (word, tok) (u, v)) = 0 := by
          apply List.countP_eq_zero.2
          intro tok htok hc
          rcases List.mem_filter.1 htok with ⟨-, hne⟩
          rcases (pairBEq_iff _ _).1 hc with h | h <;>
            rw [Prod.ext_iff] at h <;> obtain ⟨h1, h2⟩ := h <;>
            simp only at h1 h2
          · exact (of_decide_eq_true hne) (h1.trans (huv.trans h2.symm))
          · exact (of_decide_eq_true hne) (h1.trans (huv.symm.trans h2.symm))
        rw [hC]
        simp [huv]
      · by_cases hu : u = word
        · have hC : ((tokenize_and_stem stop r.titel).filter
              (fun tok => decide (¬ word = tok))).countP
                (fun tok => pairBEq (word, tok) (u, v))
              = if v ∈ (tokenize_and_stem stop r.titel).filter
                  (fun tok => decide (¬ word = tok)) then 1 else 0 := by
            apply countP_eq_ite_mem _ hnd v
            intro tok
            rw [pairBEq_iff]
            constructor
            · rintro (h | h) <;> rw [Prod.ext_iff] at h <;>
                obtain ⟨h1, h2⟩ := h <;> simp only at h1 h2
              · exact h2
              · exact absurd (hu.trans h1) huv
            · rintro rfl
              exact Or.inl (by rw [hu])
          rw [hC]
          have hvmem : (v ∈ (tokenize_and_stem stop r.titel).filter
              (fun tok => decide (¬ word = tok)))
              ↔ v ∈ tokenize_and_stem stop r.titel := by
            rw [List.mem_filter]
            constructor
            · exact fun h => h.1
            · intro h
              refine ⟨h, decide_eq_true ?_⟩
              exact fun hc => huv (hu.trans hc)
          rw [if_congr hvmem rfl rfl]
          have hcond : (u ≠ v ∧ (u = word ∨ v = word)) := ⟨huv, Or.inl hu⟩
          rw [if_pos hcond, if_pos hcond]
          have humem : u ∈ tokenize_and_stem stop r.titel := by
            rw [hu]; exact hword
          by_cases hv2 : v ∈ tokenize_and_stem stop r.titel
          · rw [if_pos hv2, if_pos (decide_eq_true (And.intro humem hv2))]
            omega
          · rw [if_neg hv2, if_neg (fun hc => hv2 (of_decide_eq_true hc).2)]
            omega
        · by_cases hv : v = word
          · have hC : ((tokenize_and_stem stop r.titel).filter
                (fun tok => decide (¬ word = tok))).countP
                  (fun tok => pairBEq (word, tok) (u, v))
                = if u ∈ (tokenize_and_stem stop r.titel).filter
                    (fun tok => decide (¬ word = tok)) then 1 else 0 := by
              apply countP_eq_ite_mem _ hnd u
              intro tok
              rw [pairBEq_iff]
              constructor
              · rintro (h | h) <;> rw [Prod.ext_iff] at h <;>
                  obtain ⟨h1, h2⟩ := h <;> simp only at h1 h2
                · exact absurd (hv.trans h1).symm huv
                · exact h2
              · rintro rfl
                exact Or.inr (by rw [hv])
            rw [hC]
            have humem : (u ∈ (tokenize_and_stem stop r.titel).filter
                (fun tok => decide (¬ word = tok)))
                ↔ u ∈ tokenize_and_stem stop r.titel := by
              rw [List.mem_filter]
              constructor
              · exact fun h => h.1
              · intro h
                refine ⟨h, decide_eq_true ?_⟩
                exact fun hc => huv (hc.symm.trans hv.symm)
            rw [if_congr humem rfl rfl]
            have hcond : (u ≠ v ∧ (u = word ∨ v = word)) := ⟨huv, Or.inr hv⟩
            rw [if_pos hcond, if_pos hcond]
            have hvmem2 : v ∈ tokenize_and_stem stop r.titel := by
              rw [hv]; exact hword
            by_cases hu2 : u ∈ tokenize_and_stem stop r.titel
            · rw [if_pos hu2, if_pos (decide_eq_true (And.intro hu2 hvmem2))]
              omega
            · rw [if_neg hu2, if_neg (fun hc => hu2 (of_decide_eq_true hc).1)]
              omega
          · have hC : ((tokenize_and_stem stop r.titel).filter
                (fun tok => decide (¬ word = tok))).countP
                  (fun tok => pairBEq (word, tok) (u, v)) = 0 := by
              apply List.countP_eq_zero.2
              intro tok htok hc
              rcases (pairBEq_iff _ _).1 hc with h | h <;>
                rw [Prod.ext_iff] at h <;> obtain ⟨h1, h2⟩ := h <;>
                simp only at h1 h2
              · exact hu h1.symm
              · exact hv h1.symm
            rw [hC]
            have hcond : ¬ (u ≠ v ∧ (u = word ∨ v = word)) := by
              rintro ⟨-, h | h⟩
              · exact hu h
              · exact hv h
            rw [if_neg hcond, if_neg hcond]

theorem getWeight_wordsFold (stop : List String) (t : Dict × Dict × Dict)
    (words : List String) (hw : words.Nodup) (recs : List Record) (g : NGraph)
    (u v : String) :
    getWeight (recs.foldl
        (fun g r =>
          let tokens := tokenize_and_stem stop r.titel
          let sw := searchWords words tokens
          if sw.length ≤ 1 then g
          else
            let g1 := sw.foldl (fun g s => add_node g s (statsAttr t s)) g
            pairLoop g1 sw sw) g) u v
      = getWeight g u v
        + (if u ≠ v ∧ u ∈ words ∧ v ∈ words then coCount stop recs u v else 0) := by
  induction recs generalizing g with
  | nil => simp [coCount]
  | cons r rs ih =>
    rw [List.foldl_cons, ih]
    simp only []
    unfold coCount
    rw [List.countP_cons]
    have hswnd : (searchWords words (tokenize_and_stem stop r.titel)).Nodup :=
      searchWords_nodup words _ hw (tokenize_nodup stop r.titel)
    by_cases hlen : (searchWords words (tokenize_and_stem stop r.titel)).length ≤ 1
    · rw [if_pos hlen]
      by_cases hcond : u ≠ v ∧ u ∈ words ∧ v ∈ words
      · have hpr : ¬ (u ∈ tokenize_and_stem stop r.titel ∧
            v ∈ tokenize_and_stem stop r.titel) := by
          rintro ⟨hu, hv⟩
          have hu2 : u ∈ searchWords words (tokenize_and_stem stop r.titel) :=
            (mem_searchWords words _ hw u).2 ⟨hu, hcond.2.1⟩
          have hv2 : v ∈ searchWords words (tokenize_and_stem stop r.titel) :=
            (mem_searchWords words _ hw v).2 ⟨hv, hcond.2.2⟩
          have := two_le_length_of_two_mem _ u v hu2 hv2 hcond.1
          omega
        rw [if_pos hcond, if_pos hcond,
          if_neg (fun hc => hpr (of_decide_eq_true hc))]
        omega
      · rw [if_neg hcond, if_neg hcond]
    · rw [if_neg hlen]
      rw [getWeight_pairLoop, getWeight_foldl_add_node,
        pairCnt_nodup _ hswnd u v]
      by_cases huv : u = v
      · simp [huv]
      · by_cases hb : (u ∈ tokenize_and_stem stop r.titel ∧
            v ∈ tokenize_and_stem stop r.titel) ∧ u ∈ words ∧ v ∈ words
        · have hu2 : u ∈ searchWords words (tokenize_and_stem stop r.titel) :=
            (mem_searchWords words _ hw u).2 ⟨hb.1.1, hb.2.1⟩
          have hv2 : v ∈ searchWords words (tokenize_and_stem stop r.titel) :=
            (mem_searchWords words _ hw v).2 ⟨hb.1.2, hb.2.2⟩
          rw [if_pos (And.intro huv (And.intro hu2 hv2)),
            if_pos (And.intro huv hb.2), if_pos (And.intro huv hb.2),
            if_pos (decide_eq_true hb.1)]
          omega
        · by_cases hw2 : u ∈ words ∧ v ∈ words
          · have hb2 : ¬ (u ∈ tokenize_and_stem stop r.titel ∧
                v ∈ tokenize_and_stem stop r.titel) := fun hmem => hb ⟨hmem, hw2⟩
            have hsw : ¬ (u ∈ searchWords words (tokenize_and_stem stop r.titel) ∧
                v ∈ searchWords words (tokenize_and_stem stop r.titel)) := by
              rintro ⟨h1, h2⟩
              exact hb2 ⟨((mem_searchWords words _ hw u).1 h1).1,
                ((mem_searchWords words _ hw v).1 h2).1⟩
            rw [if_neg (fun hAll => hsw hAll.2), if_pos (And.intro huv hw2),
              if_pos (And.intro huv hw2),
              if_neg (fun hc => hb2 (of_decide_eq_true hc))]
            omega
          · have hsw : ¬ (u ∈ searchWords words (tokenize_and_stem stop r.titel) ∧
                v ∈ searchWords words (tokenize_and_stem stop r.titel)) := by
              rintro ⟨h1, h2⟩
              exact hw2 ⟨((mem_searchWords words _ hw u).1 h1).2,
                ((mem_searchWords words _ hw v).1 h2).2⟩
            rw [if_neg (fun hAll => hsw hAll.2),
              if_neg (fun hAll => hw2 hAll.2),
              if_neg (fun hAll => hw2 hAll.2)]

theorem edgesInv_empty : EdgesInv emptyGraph :=
  ⟨fun e he => absurd he (List.not_mem_nil e), List.Pairwise.nil⟩

theorem edgesInv_edges_eq (g g' : NGraph) (h : g'.edges = g.edges)
    (hi : EdgesInv g) : EdgesInv g' := by
  unfold EdgesInv
  rw [h]
  exact hi

theorem edgesInv_updateEdge (g : NGraph) (s t : String) (hst : s ≠ t)
    (h : EdgesInv g) : EdgesInv (updateEdge g s t) := by
  unfold updateEdge
  by_cases he : hasEdge g s t = true
  · rw [if_pos he]
    unfold EdgesInv incWeight
    simp only []
    constructor
    · intro e hee
      rcases List.mem_map.1 hee with ⟨e0, he0, rfl⟩
      rcases h.1 e0 he0 with ⟨hne, hwp⟩
      split
      · exact ⟨hne, by omega⟩
      · exact ⟨hne, hwp⟩
    · rw [List.pairwise_map]
      apply h.2.imp
      intro a b hab
      have ha : (if pairBEq a.1 (s, t) then (a.1, a.2 + 1) else a).1 = a.1 := by
        split <;> rfl
      have hb : (if pairBEq b.1 (s, t) then (b.1, b.2 + 1) else b).1 = b.1 := by
        split <;> rfl
      rw [ha, hb]
      exact hab
  · rw [if_neg he]
    unfold add_edge
    rw [if_neg (by rw [hasEdge_ensureNode, hasEdge_ensureNode]; exact he)]
    constructor
    · intro e hee
      simp only [edges_ensureNode] at hee
      rcases List.mem_append.1 hee with h0 | h0
      · exact h.1 e h0
      · rcases List.mem_singleton.1 h0 with rfl
        exact ⟨hst, le_refl 1⟩
    · simp only [edges_ensureNode]
      rw [List.pairwise_append]
      refine ⟨h.2, List.pairwise_singleton _ _, ?_⟩
      intro a ha b hb
      rcases List.mem_singleton.1 hb with rfl
      exact fun hc => he ((hasEdge_iff_exists g s t).2 ⟨a, ha, hc⟩)

theorem edgesInv_foldl_updateEdge (s : String) (ts : List String)
    (hs : s ∉ ts) (g : NGraph) (h : EdgesInv g) :
    EdgesInv (ts.foldl (fun g t => updateEdge g s t) g) := by
  induction ts generalizing g with
  | nil => exact h
  | cons t ts ih =>
    rw [List.foldl_cons]
    have hst : s ≠ t := fun hc => hs (hc ▸ List.mem_cons_self t ts)
    exact ih (fun hc => hs (List.mem_cons_of_mem _ hc)) _
      (edgesInv_updateEdge g s t hst h)

theorem edgesInv_foldl_egoEdge (word : String) (F : String → NodeAttr)
    (ts : List String) (hts : ∀ tok ∈ ts, ¬ word = tok) (g : NGraph)
    (h : EdgesInv g) :
    EdgesInv (ts.foldl
      (fun g tok => updateEdge (add_node g tok (F tok)) word tok) g) := by
  induction ts generalizing g with
  | nil => exact h
  | cons t ts ih =>
    rw [List.foldl_cons]
    exact ih (fun tok htok => hts tok (List.mem_cons_of_mem _ htok)) _
      (edgesInv_updateEdge _ word t (hts t (List.mem_cons_self t ts))
        (edgesInv_edges_eq _ _ (edges_add_node g t (F t)) h))

theorem edgesInv_pairLoop (l : List String) (hl : l.Nodup) (g : NGraph)
    (h : EdgesInv g) : EdgesInv (pairLoop g l l) := by
  induction l generalizing g with
  | nil => exact h
  | cons s rest ih =>
    show EdgesInv
      (pairLoop (((s :: rest).erase s).foldl (fun g t => updateEdge g s t) g)
        rest ((s :: rest).erase s))
    rw [List.erase_cons_head]
    rcases List.nodup_cons.1 hl with ⟨hs, hrest⟩
    exact ih hrest _ (edgesInv_foldl_updateEdge s rest hs g h)

theorem edgesInv_buildCoreAll (stop : List String) (recs : List Record) :
    EdgesInv (buildCoreAll stop recs) := by
  suffices h : ∀ (recs2 : List Record) (g : NGraph), EdgesInv g →
      EdgesInv (recs2.foldl
        (fun g r =>
          let tokens := tokenize_and_stem stop r.titel
          let g1 := tokens.foldl
            (fun g s => add_node g s (statsAttr (generate_data stop recs 0) s)) g
          pairLoop g1 tokens tokens) g) by
    exact h recs emptyGraph edgesInv_empty
  intro recs2
  induction recs2 with
  | nil => exact fun g h => h
  | cons r rs ih =>
    intro g h
    rw [List.foldl_cons]
    apply ih
    simp only []
    apply edgesInv_pairLoop _ (tokenize_nodup stop r.titel)
    exact edgesInv_edges_eq _ _ (edges_foldl_add_node _ _ _) h

theorem edgesInv_buildCoreWord (stop : List String) (recs : List Record)
    (word : String) : EdgesInv (buildCoreWord stop recs word) := by
  suffices h : ∀ (recs2 : List Record) (g : NGraph), EdgesInv g →
      EdgesInv (recs2.foldl
        (fun g r =>
          let tokens := tokenize_and_stem stop r.titel
          if word ∉ tokens then g
          else
            let g1 := add_node g word (statsAttr (generate_data stop recs 0) word)
            let targ_list := tokens.filter (fun tok => decide (¬ word = tok))
            targ_list.foldl
              (fun g tok => updateEdge
                (add_node g tok (statsAttr (generate_data stop recs 0) tok))
                word tok)
              g1) g) by
    exact h recs emptyGraph edgesInv_empty
  intro recs2
  induction recs2 with
  | nil => exact fun g h => h
  | cons r rs ih =>
    intro g h
    rw [List.foldl_cons]
    apply ih
    simp only []
    by_cases hwtok : word ∉ tokenize_and_stem stop r.titel
    · rw [if_pos hwtok]
      exact h
    · rw [if_neg hwtok]
      apply edgesInv_foldl_egoEdge word _ _ ?hts
      case hts =>
        intro tok htok
        exact of_decide_eq_true (List.mem_filter.1 htok).2
      exact edgesInv_edges_eq _ _ (edges_add_node _ _ _) h

theorem edgesInv_buildCoreWords (stop : List String) (recs : List Record)
    (words : List String) (hw : words.Nodup) :
    EdgesInv (buildCoreWords stop recs words) := by
  suffices h : ∀ (recs2 : List Record) (g : NGraph), EdgesInv g →
      EdgesInv (recs2.foldl
        (fun g r =>
          let tokens := tokenize_and_stem stop r.titel
          let sw := searchWords words tokens
          if sw.length ≤ 1 then g
          else
            let g1 := sw.foldl
              (fun g s => add_node g s (statsAttr (generate_data stop recs 0) s)) g
            pairLoop g1 sw sw) g) by
    exact h recs emptyGraph edgesInv_empty
  intro recs2
  induction recs2 with
  | nil => exact fun g h => h
  | cons r rs ih =>
    intro g h
    rw [List.foldl_cons]
    apply ih
    simp only []
    by_cases hlen :
        (searchWords words (tokenize_and_stem stop r.titel)).length ≤ 1
    · rw [if_pos hlen]
      exact h
    · rw [if_neg hlen]
      apply edgesInv_pairLoop _
        (searchWords_nodup words _ hw (tokenize_nodup stop r.titel))
      exact edgesInv_edges_eq _ _ (edges_foldl_add_node _ _ _) h

/-! ### Core-builder weight formulas and edge-list entries -/

theorem getWeight_empty (u v : String) : getWeight emptyGraph u v = 0 := rfl

theorem getWeight_buildCoreAll (stop : List String) (recs : List Record)
    (u v : String) :
    getWeight (buildCoreAll stop recs) u v
      = if u ≠ v then coCount stop recs u v else 0 := by
  have h := getWeight_allFold stop (generate_data stop recs 0) recs
    emptyGraph u v
  rw [getWeight_empty, Nat.zero_add] at h
  exact h

theorem getWeight_buildCoreWord (stop : List String) (recs : List Record)
    (word : String) (u v : String) :
    getWeight (buildCoreWord stop recs word) u v
      = if u ≠ v ∧ (u = word ∨ v = word) then coCount stop recs u v else 0 := by
  have h := getWeight_wordFold stop (generate_data stop recs 0) word recs
    emptyGraph u v
  rw [getWeight_empty, Nat.zero_add] at h
  exact h

theorem getWeight_buildCoreWords (stop : List String) (recs : List Record)
    (words : List String) (hw : words.Nodup) (u v : String) :
    getWeight (buildCoreWords stop recs words) u v
      = if u ≠ v ∧ u ∈ words ∧ v ∈ words then coCount stop recs u v else 0 := by
  have h := getWeight_wordsFold stop (generate_data stop recs 0) words hw recs
    emptyGraph u v
  rw [getWeight_empty, Nat.zero_add] at h
  exact h

theorem getWeight_setDegrees (g : NGraph) (u v : String) :
    getWeight (setDegrees g) u v = getWeight g u v := rfl

theorem edgesInv_setDegrees (g : NGraph) (h : EdgesInv g) :
    EdgesInv (setDegrees g) := edgesInv_edges_eq _ _ rfl h

theorem adjOf_eq_of_edges (g g2 : NGraph) (h : g2.edges = g.edges) :
    ∀ u, adjOf g2 u = adjOf g u := by
  intro u
  unfold adjOf
  rw [h]

theorem edgesAux_eq_of_edges (g g2 : NGraph) (h : g2.edges = g.edges) :
    ∀ (ns seen : List String), edgesAux g2 seen ns = edgesAux g seen ns := by
  intro ns
  induction ns with
  | nil => intro seen; rfl
  | cons u rest ih =>
    intro seen
    show ((adjOf g2 u).filter _).map _ ++ edgesAux g2 (seen ++ [u]) rest
      = ((adjOf g u).filter _).map _ ++ edgesAux g (seen ++ [u]) rest
    rw [adjOf_eq_of_edges g g2 h, ih]

theorem edgesList_setDegrees (g : NGraph) :
    edgesList (setDegrees g) = edgesList g := by
  unfold edgesList
  exact edgesAux_eq_of_edges g (setDegrees g) rfl g.nodes []

theorem mem_adjOf_entry (g : NGraph) (u x : String) (hx : x ∈ adjOf g u) :
    ∃ en ∈ g.edges, PairEq en.1 (u, x) := by
  unfold adjOf at hx
  rcases List.mem_map.1 hx with ⟨en, hen, rfl⟩
  rcases List.mem_filter.1 hen with ⟨hen2, hcond⟩
  have hcond2 : en.1.1 = u ∨ en.1.2 = u := of_decide_eq_true hcond
  refine ⟨en, hen2, ?_⟩
  by_cases h1 : en.1.1 = u
  · rw [if_pos h1]
    exact Or.inl (by rw [← h1])
  · rcases hcond2 with h | h
    · exact absurd h h1
    · rw [if_neg h1]
      exact Or.inr (by rw [← h])

theorem mem_edgesAux_adj (g : NGraph) (seen nodes : List String)
    (e : String × String) (he : e ∈ edgesAux g seen nodes) :
    e.2 ∈ adjOf g e.1 := by
  induction nodes generalizing seen with
  | nil => cases he
  | cons u rest ih =>
    rcases List.mem_append.1 he with h | h
    · rcases List.mem_map.1 h with ⟨x, hx, rfl⟩
      exact (List.mem_filter.1 hx).1
    · exact ih _ h

theorem mem_edgesList_entry (g : NGraph) (e : String × String)
    (he : e ∈ edgesList g) : ∃ en ∈ g.edges, PairEq en.1 e := by
  have h := mem_edgesAux_adj g [] g.nodes e he
  obtain ⟨en, hen, hp⟩ := mem_adjOf_entry g e.1 e.2 h
  exact ⟨en, hen, hp⟩

theorem find?_unique_entry (l : List ((String × String) × Nat))
    (hP : l.Pairwise (fun a b => ¬ PairEq a.1 b.1))
    (en : (String × String) × Nat) (hen : en ∈ l) (u v : String)
    (hpe : PairEq en.1 (u, v)) :
    l.find? (fun e => pairBEq e.1 (u, v)) = some en := by
  induction l with
  | nil => cases hen
  | cons a l ih =>
    rcases List.pairwise_cons.1 hP with ⟨ha, hl⟩
    rcases List.mem_cons.1 hen with rfl | hen2
    · have hb : pairBEq en.1 (u, v) = true := pairBEq_true_of _ _ hpe
      simp [List.find?_cons, hb]
    · have hna : ¬ PairEq a.1 (u, v) := fun hc =>
        (ha en hen2) (pairEq_trans hc (pairEq_symm hpe))
      have hb : pairBEq a.1 (u, v) = false := pairBEq_false_of _ _ hna
      simp only [List.find?_cons, hb]
      exact ih hl hen2

theorem getWeight_of_entry (g : NGraph)
    (hP : g.edges.Pairwise (fun a b => ¬ PairEq a.1 b.1))
    (en : (String × String) × Nat) (hen : en ∈ g.edges) (u v : String)
    (hpe : PairEq en.1 (u, v)) : getWeight g u v = en.2 := by
  unfold getWeight
  rw [find?_unique_entry g.edges hP en hen u v hpe]
  rfl

/-- The weight a surviving `G.edges()` element carries in the pruned graph
is positive and unchanged from the unpruned graph. -/
theorem pruneTop_edge_weight (g : NGraph) (n : Int) (hI : EdgesInv g)
    (e : String × String) (he : e ∈ edgesList (pruneTop g n)) :
    1 ≤ getWeight (pruneTop g n) e.1 e.2 ∧
    getWeight (pruneTop g n) e.1 e.2 = getWeight g e.1 e.2 := by
  obtain ⟨en, hen, hpe⟩ := mem_edgesList_entry _ e he
  have hsubL : (pruneTop g n).edges.Sublist g.edges := by
    show (((removeEdgesFrom g (edgesRemove g n)).edges).filter _).Sublist g.edges
    exact (List.filter_sublist _).trans (List.filter_sublist _)
  have hPW : (pruneTop g n).edges.Pairwise (fun a b => ¬ PairEq a.1 b.1) :=
    hI.2.sublist hsubL
  have henG : en ∈ g.edges := hsubL.mem hen
  have h1 : getWeight (pruneTop g n) e.1 e.2 = en.2 :=
    getWeight_of_entry _ hPW en hen e.1 e.2 hpe
  have h2 : getWeight g e.1 e.2 = en.2 :=
    getWeight_of_entry _ hI.2 en henG e.1 e.2 hpe
  have h3 : 1 ≤ en.2 := (hI.1 en henG).2
  exact ⟨h1 ▸ h3, h1.trans h2.symm⟩

/-- Without pruning: the weight of every iterated edge is positive. -/
theorem edgesList_weight_pos (g : NGraph) (hI : EdgesInv g)
    (e : String × String) (he : e ∈ edgesList g) :
    1 ≤ getWeight g e.1 e.2 := by
  obtain ⟨en, hen, hpe⟩ := mem_edgesList_entry _ e he
  have h1 : getWeight g e.1 e.2 = en.2 :=
    getWeight_of_entry _ hI.2 en hen e.1 e.2 hpe
  rw [h1]
  exact (hI.1 en hen).2

/-! ### Attribute-preservation lemmas for the pruning phase -/

theorem find?_filter_eq {α : Type} (l : List α) (p q : α → Bool)
    (h : ∀ x, p x = true → q x = true) :
    List.find? p (l.filter q) = List.find? p l := by
  induction l with
  | nil => rfl
  | cons a l ih =>
    by_cases hq : q a = true
    · rw [List.filter_cons_of_pos hq]
      by_cases hp : p a = true
      · rw [List.find?_cons_of_pos _ hp, List.find?_cons_of_pos _ hp]
      · rw [List.find?_cons_of_neg _ hp, List.find?_cons_of_neg _ hp, ih]
    · have hp : ¬ p a = true := fun hp => hq (h a hp)
      rw [List.filter_cons_of_neg hq, List.find?_cons_of_neg _ hp, ih]

theorem mem_nodes_removeIsolates (g : NGraph) (v : String)
    (hv : v ∈ (removeIsolates g).nodes) :
    v ∈ g.nodes ∧ v ∉ g.nodes.filter (fun u => decide (adjOf g u = [])) := by
  have hv' : v ∈ g.nodes.filter
      (fun u => decide (u ∉ g.nodes.filter (fun w => decide (adjOf g w = [])))) :=
    hv
  rcases List.mem_filter.1 hv' with ⟨h1, h2⟩
  exact ⟨h1, of_decide_eq_true h2⟩

theorem attrGetD_removeIsolates (g : NGraph) (v : String)
    (hv : v ∈ (removeIsolates g).nodes) :
    attrGetD (removeIsolates g) v = attrGetD g v := by
  obtain ⟨hmem, hiso⟩ := mem_nodes_removeIsolates g v hv
  have hattrs : (removeIsolates g).attrs = g.attrs.filter
      (fun kv => decide (kv.1 ∉ g.nodes.filter (fun w => decide (adjOf g w = [])))) :=
    rfl
  simp only [attrGetD, hattrs]
  rw [find?_filter_eq]
  intro kv hkv
  have hk : kv.1 = v := by simpa using hkv
  rw [hk]
  exact decide_eq_true hiso

theorem find?_map_self (nodes : List String) (f : String → NodeAttr)
    (v : String) (hv : v ∈ nodes) :
    List.find? (fun kv => kv.1 = v) (nodes.map (fun u => (u, f u)))
      = some (v, f v) := by
  induction nodes with
  | nil => cases hv
  | cons u rest ih =>
    by_cases h : u = v
    · subst h
      simp [List.find?_cons]
    · rcases List.mem_cons.1 hv with rfl | hv'
      · exact absurd rfl h
      · simp only [List.map_cons]
        rw [List.find?_cons_of_neg _ (by simpa using h)]
        exact ih hv'

theorem attrGetD_setDegrees (g : NGraph) (v : String) (hv : v ∈ g.nodes) :
    attrGetD (setDegrees g) v
      = { attrGetD g v with total_deg := degreeOf g v } := by
  simp only [setDegrees, attrGetD]
  rw [find?_map_self g.nodes _ v hv]
  rfl

theorem pruneTop_attr (g : NGraph) (n : Int) (v : String)
    (hv : v ∈ (pruneTop g n).nodes) :
    v ∈ g.nodes ∧ attrGetD (pruneTop g n) v = attrGetD g v := by
  have hv' : v ∈ (removeIsolates (removeEdgesFrom g (edgesRemove g n))).nodes :=
    hv
  have h1 := mem_nodes_removeIsolates _ v hv'
  have h2 := attrGetD_removeIsolates _ v hv'
  exact ⟨h1.1, h2⟩

theorem degreeOf_setDegrees (g : NGraph) (v : String) :
    degreeOf (setDegrees g) v = degreeOf g v := rfl

theorem nodes_setDegrees (g : NGraph) : (setDegrees g).nodes = g.nodes := rfl

/-! ### C1: which degree does `total_deg` record? -/

/-- Counterexample to C1 as stated: on the table
`["a b", "a b", "a c"]` with `top_n = 2`, pruning keeps only the edge
`(a, b)`; the surviving node `a` has post-pruning degree 1, but its
`total_deg` attribute is 2 — the pre-pruning degree, recorded by the
degree loop that runs BEFORE the edge pruning. -/
theorem C1_degree_cex :
    "a" ∈ (generate_graph_data_all [] [⟨"a b", 1⟩, ⟨"a b", 1⟩, ⟨"a c", 1⟩] 2).nodes ∧
    (attrGetD (generate_graph_data_all [] [⟨"a b", 1⟩, ⟨"a b", 1⟩, ⟨"a c", 1⟩] 2)
      "a").total_deg = 2 ∧
    degreeOf (generate_graph_data_all [] [⟨"a b", 1⟩, ⟨"a b", 1⟩, ⟨"a c", 1⟩] 2)
      "a" = 1 := by
  decide

/-- C1 (amended): in the ego and global views every surviving node's
`total_deg` attribute equals that node's degree in the PRE-pruning graph
(the degree loop runs before edge pruning, and pruning does not update
attributes); it does not in general equal the post-pruning degree. -/
theorem C1_total_deg_is_preprune (stop : List String) (recs : List Record)
    (word : String) (top_n : Int) :
    (∀ v ∈ (generate_graph_data_word stop recs word top_n).nodes,
      (attrGetD (generate_graph_data_word stop recs word top_n) v).total_deg
        = degreeOf (buildGraphWord stop recs word) v) ∧
    (∀ v ∈ (generate_graph_data_all stop recs top_n).nodes,
      (attrGetD (generate_graph_data_all stop recs top_n) v).total_deg
        = degreeOf (buildGraphAll stop recs) v) := by
  constructor
  · intro v hv
    obtain ⟨hmem, hattr⟩ :=
      pruneTop_attr (buildGraphWord stop recs word) top_n v hv
    have hmem' : v ∈ (buildCoreWord stop recs word).nodes := hmem
    calc (attrGetD (generate_graph_data_word stop recs word top_n) v).total_deg
        = (attrGetD (pruneTop (buildGraphWord stop recs word) top_n) v).total_deg :=
          rfl
      _ = (attrGetD (buildGraphWord stop recs word) v).total_deg := by rw [hattr]
      _ = (attrGetD (setDegrees (buildCoreWord stop recs word)) v).total_deg :=
          rfl
      _ = degreeOf (buildCoreWord stop recs word) v := by
          rw [attrGetD_setDegrees _ v hmem']
      _ = degreeOf (buildGraphWord stop recs word) v := rfl
  · intro v hv
    obtain ⟨hmem, hattr⟩ := pruneTop_attr (buildGraphAll stop recs) top_n v hv
    have hmem' : v ∈ (buildCoreAll stop recs).nodes := hmem
    calc (attrGetD (generate_graph_data_all stop recs top_n) v).total_deg
        = (attrGetD (pruneTop (buildGraphAll stop recs) top_n) v).total_deg :=
          rfl
      _ = (attrGetD (buildGraphAll stop recs) v).total_deg := by rw [hattr]
      _ = (attrGetD (setDegrees (buildCoreAll stop recs)) v).total_deg := rfl
      _ = degreeOf (buildCoreAll stop recs) v := by
          rw [attrGetD_setDegrees _ v hmem']
      _ = degreeOf (buildGraphAll stop recs) v := rfl

/-- Witness for the amended C1: node `a` of the pruned global graph
carries `total_deg = 2`, its degree in the pre-pruning graph. -/
theorem C1_total_deg_is_preprune_witness :
    (attrGetD (generate_graph_data_all [] [⟨"a b", 1⟩, ⟨"a b", 1⟩, ⟨"a c", 1⟩] 2)
      "a").total_deg
      = degreeOf (buildGraphAll [] [⟨"a b", 1⟩, ⟨"a b", 1⟩, ⟨"a c", 1⟩]) "a" :=
  (C1_total_deg_is_preprune [] [⟨"a b", 1⟩, ⟨"a b", 1⟩, ⟨"a c", 1⟩] "x" 2).2
    "a" (by decide)

/-! ### Node-list invariant: insertion keeps `nodes` duplicate-free -/

theorem nodup_ensureNode (g : NGraph) (v : String) (h : g.nodes.Nodup) :
    (ensureNode g v).nodes.Nodup := by
  unfold ensureNode
  split
  · exact h
  · next hv =>
    exact List.Nodup.append h (List.nodup_singleton v)
      (List.disjoint_singleton.2 hv)

theorem nodes_add_node (g : NGraph) (v : String) (a : NodeAttr) :
    (add_node g v a).nodes = (ensureNode g v).nodes := by
  unfold add_node
  split <;> rfl

theorem nodup_add_node (g : NGraph) (v : String) (a : NodeAttr)
    (h : g.nodes.Nodup) : (add_node g v a).nodes.Nodup := by
  rw [nodes_add_node]
  exact nodup_ensureNode g v h

theorem nodup_updateEdge (g : NGraph) (s t : String) (h : g.nodes.Nodup) :
    (updateEdge g s t).nodes.Nodup := by
  unfold updateEdge
  split
  · exact h
  · unfold add_edge
    split
    · exact nodup_ensureNode _ t (nodup_ensureNode g s h)
    · exact nodup_ensureNode _ t (nodup_ensureNode g s h)

theorem nodup_foldl_add_node (F : String → NodeAttr) (ts : List String)
    (g : NGraph) (h : g.nodes.Nodup) :
    (ts.foldl (fun g s => add_node g s (F s)) g).nodes.Nodup := by
  induction ts generalizing g with
  | nil => exact h
  | cons t ts ih => exact ih _ (nodup_add_node g t (F t) h)

theorem nodup_foldl_updateEdge (s : String) (ts : List String) (g : NGraph)
    (h : g.nodes.Nodup) :
    (ts.foldl (fun g t => updateEdge g s t) g).nodes.Nodup := by
  induction ts generalizing g with
  | nil => exact h
  | cons t ts ih => exact ih _ (nodup_updateEdge g s t h)

theorem nodup_foldl_egoEdge (word : String) (F : String → NodeAttr)
    (ts : List String) (g : NGraph) (h : g.nodes.Nodup) :
    (ts.foldl (fun g tok => updateEdge (add_node g tok (F tok)) word tok)
      g).nodes.Nodup := by
  induction ts generalizing g with
  | nil => exact h
  | cons t ts ih =>
    exact ih _ (nodup_updateEdge _ word t (nodup_add_node g t (F t) h))

theorem nodup_pairLoop (source targ : List String) (g : NGraph)
    (h : g.nodes.Nodup) : (pairLoop g source targ).nodes.Nodup := by
  induction source generalizing g targ with
  | nil => exact h
  | cons s rest ih =>
    exact ih _ _ (nodup_foldl_updateEdge s (targ.erase s) g h)

theorem nodup_buildCoreAll (stop : List String) (recs : List Record) :
    (buildCoreAll stop recs).nodes.Nodup := by
  suffices h : ∀ (recs2 : List Record) (g : NGraph), g.nodes.Nodup →
      (recs2.foldl
        (fun g r =>
          let tokens := tokenize_and_stem stop r.titel
          let g1 := tokens.foldl
            (fun g s => add_node g s (statsAttr (generate_data stop recs 0) s)) g
          pairLoop g1 tokens tokens) g).nodes.Nodup by
    exact h recs emptyGraph List.nodup_nil
  intro recs2
  induction recs2 with
  | nil => exact fun g h => h
  | cons r rs ih =>
    intro g h
    rw [List.foldl_cons]
    apply ih
    simp only []
    exact nodup_pairLoop _ _ _ (nodup_foldl_add_node _ _ g h)

theorem nodup_buildCoreWord (stop : List String) (recs : List Record)
    (word : String) : (buildCoreWord stop recs word).nodes.Nodup := by
  suffices h : ∀ (recs2 : List Record) (g : NGraph), g.nodes.Nodup →
      (recs2.foldl
        (fun g r =>
          let tokens := tokenize_and_stem stop r.titel
          if word ∉ tokens then g
          else
            let g1 := add_node g word (statsAttr (generate_data stop recs 0) word)
            let targ_list := tokens.filter (fun tok => decide (¬ word = tok))
            targ_list.foldl
              (fun g tok => updateEdge
                (add_node g tok (statsAttr (generate_data stop recs 0) tok))
                word tok)
              g1) g).nodes.Nodup by
    exact h recs emptyGraph List.nodup_nil
  intro recs2
  induction recs2 with
  | nil => exact fun g h => h
  | cons r rs ih =>
    intro g h
    rw [List.foldl_cons]
    apply ih
    simp only []
    by_cases hwtok : word ∉ tokenize_and_stem stop r.titel
    · rw [if_pos hwtok]
      exact h
    · rw [if_neg hwtok]
      exact nodup_foldl_egoEdge word _ _ _ (nodup_add_node g word _ h)

theorem nodup_setDegrees (g : NGraph) (h : g.nodes.Nodup) :
    (setDegrees g).nodes.Nodup := h

/-! ### Pairwise distinctness of the `G.edges()` iteration -/

theorem touch_pairEq (e : (String × String) × Nat) (u : String)
    (h : e.1.1 = u ∨ e.1.2 = u) :
    PairEq e.1 (u, if e.1.1 = u then e.1.2 else e.1.1) := by
  by_cases h1 : e.1.1 = u
  · rw [if_pos h1]
    exact Or.inl (by rw [← h1])
  · rcases h with h | h
    · exact absurd h h1
    · rw [if_neg h1]
      exact Or.inr (by rw [← h])

theorem adjList_nodup (u : String) (l : List ((String × String) × Nat))
    (hP : l.Pairwise (fun a b => ¬ PairEq a.1 b.1)) :
    ((l.filter (fun e => decide (e.1.1 = u ∨ e.1.2 = u))).map
      (fun e => if e.1.1 = u then e.1.2 else e.1.1)).Nodup := by
  induction l with
  | nil => exact List.nodup_nil
  | cons a l ih =>
    rcases List.pairwise_cons.1 hP with ⟨ha, hl⟩
    rw [List.filter_cons]
    by_cases hta : (a.1.1 = u ∨ a.1.2 = u)
    · rw [if_pos (decide_eq_true hta)]
      rw [List.map_cons, List.nodup_cons]
      refine ⟨?_, ih hl⟩
      intro hmem
      rcases List.mem_map.1 hmem with ⟨b, hb, hval⟩
      rcases List.mem_filter.1 hb with ⟨hbl, hbt⟩
      have hbt2 : (b.1.1 = u ∨ b.1.2 = u) := of_decide_eq_true hbt
      have hpa := touch_pairEq a u hta
      have hpb := touch_pairEq b u hbt2
      rw [hval] at hpb
      exact (ha b hbl) (pairEq_trans hpa (pairEq_symm hpb))
    · rw [if_neg (by rw [decide_eq_false hta]; exact Bool.false_ne_true)]
      exact ih hl

theorem adjOf_nodup (g : NGraph) (u : String)
    (hP : g.edges.Pairwise (fun a b => ¬ PairEq a.1 b.1)) :
    (adjOf g u).Nodup :=
  adjList_nodup u g.edges hP

theorem not_mem_adjOf_self (g : NGraph) (u : String)
    (hS : ∀ e ∈ g.edges, e.1.1 ≠ e.1.2) : u ∉ adjOf g u := by
  intro hmem
  unfold adjOf at hmem
  rcases List.mem_map.1 hmem with ⟨e, he, hval⟩
  rcases List.mem_filter.1 he with ⟨hel, het⟩
  by_cases h1 : e.1.1 = u
  · rw [if_pos h1] at hval
    exact (hS e hel) (h1.trans hval.symm)
  · rw [if_neg h1] at hval
    exact h1 hval

theorem edgesAux_mem_fst (g : NGraph) (seen nodes : List String)
    (e : String × String) (he : e ∈ edgesAux g seen nodes) : e.1 ∈ nodes := by
  induction nodes generalizing seen with
  | nil => cases he
  | cons u rest ih =>
    rcases List.mem_append.1 he with h | h
    · rcases List.mem_map.1 h with ⟨x, hx, rfl⟩
      exact List.mem_cons_self u rest
    · exact List.mem_cons_of_mem u (ih _ h)

theorem edgesAux_mem_snd_not_seen (g : NGraph) (seen nodes : List String)
    (e : String × String) (he : e ∈ edgesAux g seen nodes) : e.2 ∉ seen := by
  induction nodes generalizing seen with
  | nil => cases he
  | cons u rest ih =>
    rcases List.mem_append.1 he with h | h
    · rcases List.mem_map.1 h with ⟨x, hx, rfl⟩
      exact fun hc => absurd hc (of_decide_eq_true (List.mem_filter.1 hx).2)
    · intro hc
      exact ih _ h (List.mem_append_left _ hc)

theorem edgesAux_pairwise (g : NGraph)
    (hP : g.edges.Pairwise (fun a b => ¬ PairEq a.1 b.1))
    (hS : ∀ e ∈ g.edges, e.1.1 ≠ e.1.2) :
    ∀ (nodes seen : List String), nodes.Nodup →
      (edgesAux g seen nodes).Pairwise (fun a b => ¬ PairEq a b) := by
  intro nodes
  induction nodes with
  | nil => intro seen hnd; exact List.Pairwise.nil
  | cons u rest ih =>
    intro seen hnd
    rcases List.nodup_cons.1 hnd with ⟨hu, hrest⟩
    show (((adjOf g u).filter _).map _ ++ edgesAux g (seen ++ [u]) rest).Pairwise _
    rw [List.pairwise_append]
    refine ⟨?_, ih _ hrest, ?_⟩
    · rw [List.pairwise_map]
      have hnodup : ((adjOf g u).filter
          (fun x => decide (x ∉ seen))).Nodup :=
        (adjOf_nodup g u hP).filter _
      refine List.Pairwise.imp_of_mem ?_ hnodup
      intro x y hxm hym hxy
      have hyu : y ≠ u := by
        intro hc
        have hym2 : y ∈ adjOf g u := List.mem_of_mem_filter hym
        exact not_mem_adjOf_self g u hS (hc ▸ hym2)
      rintro (hc | hc)
      · exact hxy (congrArg Prod.snd hc)
      · exact hyu (congrArg Prod.fst hc).symm
    · intro a ha b hb
      rcases List.mem_map.1 ha with ⟨x, hx, rfl⟩
      have hb1 : b.1 ∈ rest := edgesAux_mem_fst g _ rest b hb
      have hb2 : b.2 ∉ seen ++ [u] := edgesAux_mem_snd_not_seen g _ rest b hb
      rintro (hc | hc)
      · rw [← hc] at hb1
        exact hu hb1
      · have : u = b.2 := congrArg Prod.fst hc
        exact hb2 (this ▸ List.mem_append_right _ (List.mem_singleton.2 rfl))

/-! ### Generic filter helpers with explicit predicates -/

theorem filter_cons_pos {α : Type} (p : α → Bool) (a : α) (l : List α)
    (h : p a = true) : (a :: l).filter p = a :: l.filter p := by
  simp [List.filter_cons, h]

theorem filter_cons_neg {α : Type} (p : α → Bool) (a : α) (l : List α)
    (h : p a = false) : (a :: l).filter p = l.filter p := by
  simp [List.filter_cons, h]

/-! ### Distinctness and identification of iterated edges -/

theorem edgesList_pairwise (g : NGraph) (hI : EdgesInv g)
    (hnd : g.nodes.Nodup) :
    (edgesList g).Pairwise (fun a b => ¬ PairEq a b) :=
  edgesAux_pairwise g hI.2 (fun e he => (hI.1 e he).1) g.nodes [] hnd

theorem edgesList_nodup (g : NGraph) (hI : EdgesInv g)
    (hnd : g.nodes.Nodup) : (edgesList g).Nodup := by
  refine (edgesList_pairwise g hI hnd).imp ?_
  intro a b hab heq
  exact hab (heq ▸ pairEq_refl a)

theorem pairEq_eq_of_pairwise : ∀ (L : List (String × String)),
    L.Pairwise (fun a b => ¬ PairEq a b) → ∀ e r : String × String,
    e ∈ L → r ∈ L → PairEq e r → e = r := by
  intro L
  induction L with
  | nil => intro _ e r he; cases he
  | cons a l ih =>
    intro hPW e r he hr hp
    rcases List.pairwise_cons.1 hPW with ⟨ha, hl⟩
    rcases List.mem_cons.1 he with rfl | he2
    · rcases List.mem_cons.1 hr with rfl | hr2
      · rfl
      · exact absurd hp (ha r hr2)
    · rcases List.mem_cons.1 hr with rfl | hr2
      · exact absurd (pairEq_symm hp) (ha e he2)
      · exact ih hl e r he2 hr2 hp

/-! ### Removing isolates leaves the stored and iterated edges intact -/

theorem adjOf_ne_nil_of_touch (g : NGraph) (e : (String × String) × Nat)
    (he : e ∈ g.edges) (x : String) (hx : e.1.1 = x ∨ e.1.2 = x) :
    adjOf g x ≠ [] := by
  intro hnil
  have hmem : (if e.1.1 = x then e.1.2 else e.1.1) ∈ adjOf g x := by
    unfold adjOf
    exact List.mem_map_of_mem _ (List.mem_filter.2 ⟨he, decide_eq_true hx⟩)
  rw [hnil] at hmem
  cases hmem

theorem adjOf_ne_nil_of_mem_adjOf (g : NGraph) (u x : String)
    (h : x ∈ adjOf g u) : adjOf g x ≠ [] := by
  unfold adjOf at h
  rcases List.mem_map.1 h with ⟨e, he, hval⟩
  rcases List.mem_filter.1 he with ⟨hel, het⟩
  by_cases h1 : e.1.1 = u
  · rw [if_pos h1] at hval
    exact adjOf_ne_nil_of_touch g e hel x (Or.inr hval)
  · rw [if_neg h1] at hval
    exact adjOf_ne_nil_of_touch g e hel x (Or.inl hval)

theorem edges_removeIsolates (g : NGraph) :
    (removeIsolates g).edges = g.edges := by
  have heq : (removeIsolates g).edges = g.edges.filter
      (fun e => decide
        (e.1.1 ∉ g.nodes.filter (fun w => decide (adjOf g w = [])) ∧
         e.1.2 ∉ g.nodes.filter (fun w => decide (adjOf g w = [])))) := rfl
  rw [heq, List.filter_eq_self]
  intro e he
  apply decide_eq_true
  constructor
  · intro hmem
    have h0 : adjOf g e.1.1 = [] :=
      of_decide_eq_true (List.mem_filter.1 hmem).2
    exact adjOf_ne_nil_of_touch g e he e.1.1 (Or.inl rfl) h0
  · intro hmem
    have h0 : adjOf g e.1.2 = [] :=
      of_decide_eq_true (List.mem_filter.1 hmem).2
    exact adjOf_ne_nil_of_touch g e he e.1.2 (Or.inr rfl) h0

theorem edgesAux_filter_nodes (g : NGraph) (P : String → Bool)
    (hadj : ∀ u, P u = false → adjOf g u = [])
    (hval : ∀ u x, x ∈ adjOf g u → P x = true) :
    ∀ (nodes seen1 seen2 : List String),
      (∀ x, P x = true → (x ∈ seen1 ↔ x ∈ seen2)) →
      edgesAux g seen1 (nodes.filter P) = edgesAux g seen2 nodes := by
  intro nodes
  induction nodes with
  | nil => intro s1 s2 _; rfl
  | cons u rest ih =>
    intro s1 s2 hseen
    cases hPu : P u with
    | true =>
      rw [filter_cons_pos P u rest hPu]
      show ((adjOf g u).filter (fun x => decide (x ∉ s1))).map (fun x => (u, x))
          ++ edgesAux g (s1 ++ [u]) (rest.filter P)
        = ((adjOf g u).filter (fun x => decide (x ∉ s2))).map (fun x => (u, x))
          ++ edgesAux g (s2 ++ [u]) rest
      have hmap : (adjOf g u).filter (fun x => decide (x ∉ s1))
          = (adjOf g u).filter (fun x => decide (x ∉ s2)) := by
        apply List.filter_congr
        intro x hx
        exact decide_eq_decide.2 (not_congr (hseen x (hval u x hx)))
      have hseen2 : ∀ x, P x = true → (x ∈ s1 ++ [u] ↔ x ∈ s2 ++ [u]) := by
        intro x hPx
        rw [List.mem_append, List.mem_append]
        exact or_congr (hseen x hPx) Iff.rfl
      rw [hmap, ih (s1 ++ [u]) (s2 ++ [u]) hseen2]
    | false =>
      rw [filter_cons_neg P u rest hPu]
      show edgesAux g s1 (rest.filter P)
        = ((adjOf g u).filter (fun x => decide (x ∉ s2))).map (fun x => (u, x))
          ++ edgesAux g (s2 ++ [u]) rest
      rw [hadj u hPu]
      show edgesAux g s1 (rest.filter P) = [] ++ edgesAux g (s2 ++ [u]) rest
      rw [List.nil_append]
      apply ih
      intro x hPx
      constructor
      · intro hx1
        exact List.mem_append_left _ ((hseen x hPx).1 hx1)
      · intro hx2
        rcases List.mem_append.1 hx2 with hx2 | hx2
        · exact (hseen x hPx).2 hx2
        · rw [List.mem_singleton.1 hx2] at hPx
          rw [hPu] at hPx
          cases hPx

theorem edgesList_removeIsolates (g : NGraph) :
    edgesList (removeIsolates g) = edgesList g := by
  show edgesAux (removeIsolates g) [] (removeIsolates g).nodes
    = edgesAux g [] g.nodes
  rw [edgesAux_eq_of_edges g (removeIsolates g) (edges_removeIsolates g)]
  have hnodes : (removeIsolates g).nodes = g.nodes.filter
      (fun v => decide
        (v ∉ g.nodes.filter (fun w => decide (adjOf g w = [])))) := rfl
  rw [hnodes]
  apply edgesAux_filter_nodes g _ _ _ g.nodes [] []
  · intro x _
    exact Iff.rfl
  · intro u hu
    have hmem : u ∈ g.nodes.filter (fun w => decide (adjOf g w = [])) :=
      not_not.1 (of_decide_eq_false hu)
    exact of_decide_eq_true (List.mem_filter.1 hmem).2
  · intro u x hx
    apply decide_eq_true
    intro hmem
    exact adjOf_ne_nil_of_mem_adjOf g u x hx
      (of_decide_eq_true (List.mem_filter.1 hmem).2)

theorem degreeOf_removeIsolates_ne_zero (g2 : NGraph) (v : String)
    (hv : v ∈ (removeIsolates g2).nodes) :
    degreeOf (removeIsolates g2) v ≠ 0 := by
  obtain ⟨hmem, hiso⟩ := mem_nodes_removeIsolates g2 v hv
  have hne : adjOf g2 v ≠ [] := by
    intro hnil
    exact hiso (List.mem_filter.2 ⟨hmem, decide_eq_true hnil⟩)
  have hadj : adjOf (removeIsolates g2) v = adjOf g2 v :=
    adjOf_eq_of_edges g2 (removeIsolates g2) (edges_removeIsolates g2) v
  unfold degreeOf
  rw [hadj]
  have hlen : 0 < (adjOf g2 v).length := List.length_pos.2 hne
  have hpos : 0 < (adjOf g2 v).length + (if v ∈ adjOf g2 v then 1 else 0) :=
    Nat.lt_of_lt_of_le hlen (Nat.le_add_right _ _)
  exact Nat.pos_iff_ne_zero.1 hpos

/-! ### Removing an edge list filters the iterated edges -/

theorem pairEq_ex_congr (es : List (String × String)) {p q : String × String}
    (h : PairEq p q) :
    (∃ r ∈ es, PairEq p r) ↔ (∃ r ∈ es, PairEq q r) := by
  constructor
  · rintro ⟨r, hr, hpr⟩
    exact ⟨r, hr, pairEq_trans (pairEq_symm h) hpr⟩
  · rintro ⟨r, hr, hqr⟩
    exact ⟨r, hr, pairEq_trans h hqr⟩

theorem adjFilter_aux (u : String) (es : List (String × String))
    (l : List ((String × String) × Nat)) :
    ((l.filter (fun e => decide (¬ ∃ r ∈ es, PairEq e.1 r))).filter
        (fun e => decide (e.1.1 = u ∨ e.1.2 = u))).map
      (fun e => if e.1.1 = u then e.1.2 else e.1.1)
    = ((l.filter (fun e => decide (e.1.1 = u ∨ e.1.2 = u))).map
        (fun e => if e.1.1 = u then e.1.2 else e.1.1)).filter
      (fun x => decide (¬ ∃ r ∈ es, PairEq (u, x) r)) := by
  induction l with
  | nil => rfl
  | cons a l ih =>
    by_cases hta : (a.1.1 = u ∨ a.1.2 = u)
    · have hpa := touch_pairEq a u hta
      by_cases hka : ∃ r ∈ es, PairEq a.1 r
      · have hK : (fun (e : (String × String) × Nat) =>
            decide (¬ ∃ r ∈ es, PairEq e.1 r)) a = false :=
          decide_eq_false (not_not_intro hka)
        have hK2 : (fun x => decide (¬ ∃ r ∈ es, PairEq (u, x) r))
            (if a.1.1 = u then a.1.2 else a.1.1) = false :=
          decide_eq_false (not_not_intro ((pairEq_ex_congr es hpa).1 hka))
        rw [filter_cons_neg (fun e => decide (¬ ∃ r ∈ es, PairEq e.1 r)) a l hK,
          filter_cons_pos (fun e => decide (e.1.1 = u ∨ e.1.2 = u)) a l
            (decide_eq_true hta),
          List.map_cons,
          filter_cons_neg (fun x => decide (¬ ∃ r ∈ es, PairEq (u, x) r))
            (if a.1.1 = u then a.1.2 else a.1.1) _ hK2]
        exact ih
      · have hK : (fun (e : (String × String) × Nat) =>
            decide (¬ ∃ r ∈ es, PairEq e.1 r)) a = true :=
          decide_eq_true hka
        have hK2 : (fun x => decide (¬ ∃ r ∈ es, PairEq (u, x) r))
            (if a.1.1 = u then a.1.2 else a.1.1) = true :=
          decide_eq_true (fun hc => hka ((pairEq_ex_congr es hpa).2 hc))
        rw [filter_cons_pos (fun e => decide (¬ ∃ r ∈ es, PairEq e.1 r)) a l hK,
          filter_cons_pos (fun e => decide (e.1.1 = u ∨ e.1.2 = u)) a
            (l.filter (fun e => decide (¬ ∃ r ∈ es, PairEq e.1 r)))
            (decide_eq_true hta),
          filter_cons_pos (fun e => decide (e.1.1 = u ∨ e.1.2 = u)) a l
            (decide_eq_true hta),
          List.map_cons, List.map_cons,
          filter_cons_pos (fun x => decide (¬ ∃ r ∈ es, PairEq (u, x) r))
            (if a.1.1 = u then a.1.2 else a.1.1) _ hK2,
          ih]
    · have hT : (fun (e : (String × String) × Nat) =>
          decide (e.1.1 = u ∨ e.1.2 = u)) a = false := decide_eq_false hta
      by_cases hka : ∃ r ∈ es, PairEq a.1 r
      · rw [filter_cons_neg (fun e => decide (¬ ∃ r ∈ es, PairEq e.1 r)) a l
            (decide_eq_false (not_not_intro hka)),
          filter_cons_neg (fun e => decide (e.1.1 = u ∨ e.1.2 = u)) a l hT]
        exact ih
      · rw [filter_cons_pos (fun e => decide (¬ ∃ r ∈ es, PairEq e.1 r)) a l
            (decide_eq_true hka),
          filter_cons_neg (fun e => decide (e.1.1 = u ∨ e.1.2 = u)) a
            (l.filter (fun e => decide (¬ ∃ r ∈ es, PairEq e.1 r))) hT,
          filter_cons_neg (fun e => decide (e.1.1 = u ∨ e.1.2 = u)) a l hT]
        exact ih

theorem adjOf_removeEdgesFrom (g : NGraph) (es : List (String × String))
    (u : String) :
    adjOf (removeEdgesFrom g es) u
      = (adjOf g u).filter (fun x => decide (¬ ∃ r ∈ es, PairEq (u, x) r)) :=
  adjFilter_aux u es g.edges

theorem filter_map_pair (u : String) (p : String → Bool) (Y : List String) :
    (Y.filter p).map (fun x => (u, x))
      = (Y.map (fun x => (u, x))).filter (fun e => p e.2) := by
  induction Y with
  | nil => rfl
  | cons x Y ih =>
    cases hx : p x with
    | true =>
      rw [filter_cons_pos p x Y hx, List.map_cons, List.map_cons,
        filter_cons_pos (fun e => p e.2) (u, x) _ hx, ih]
    | false =>
      rw [filter_cons_neg p x Y hx, List.map_cons,
        filter_cons_neg (fun e => p e.2) (u, x) _ hx, ih]

theorem edgesAux_removeEdgesFrom (g : NGraph) (es : List (String × String)) :
    ∀ (nodes seen : List String),
      edgesAux (removeEdgesFrom g es) seen nodes
        = (edgesAux g seen nodes).filter
            (fun e => decide (¬ ∃ r ∈ es, PairEq e r)) := by
  intro nodes
  induction nodes with
  | nil => intro seen; rfl
  | cons u rest ih =>
    intro seen
    show ((adjOf (removeEdgesFrom g es) u).filter
          (fun x => decide (x ∉ seen))).map (fun x => (u, x))
        ++ edgesAux (removeEdgesFrom g es) (seen ++ [u]) rest
      = (((adjOf g u).filter (fun x => decide (x ∉ seen))).map
          (fun x => (u, x))
          ++ edgesAux g (seen ++ [u]) rest).filter
          (fun e => decide (¬ ∃ r ∈ es, PairEq e r))
    rw [adjOf_removeEdgesFrom, ih, List.filter_append]
    congr 1
    rw [List.filter_comm, filter_map_pair u
      (fun x => decide (¬ ∃ r ∈ es, PairEq (u, x) r))]
    apply List.filter_congr
    intro e he
    rcases List.mem_map.1 he with ⟨x, hx, rfl⟩
    rfl

theorem edgesList_removeEdgesFrom (g : NGraph) (es : List (String × String)) :
    edgesList (removeEdgesFrom g es)
      = (edgesList g).filter (fun e => decide (¬ ∃ r ∈ es, PairEq e r)) := by
  show edgesAux (removeEdgesFrom g es) [] (removeEdgesFrom g es).nodes = _
  have hn : (removeEdgesFrom g es).nodes = g.nodes := rfl
  rw [hn]
  exact edgesAux_removeEdgesFrom g es g.nodes []

/-! ### The pruning step keeps exactly the top edges -/

theorem edgesList_pruneTop (g : NGraph) (n : Int) (hI : EdgesInv g)
    (hnd : g.nodes.Nodup) :
    edgesList (pruneTop g n)
      = (edgesList g).filter (fun e => decide (e ∈ topEdges g n)) := by
  show edgesList (removeIsolates (removeEdgesFrom g (edgesRemove g n))) = _
  rw [edgesList_removeIsolates, edgesList_removeEdgesFrom]
  apply List.filter_congr
  intro e he
  apply decide_eq_decide.2
  constructor
  · intro hnone
    by_contra hnotT
    exact hnone ⟨e, List.mem_filter.2 ⟨he, decide_eq_true hnotT⟩,
      pairEq_refl e⟩
  · intro hT
    rintro ⟨r, hr, hpr⟩
    rcases List.mem_filter.1 hr with ⟨hrL, hrT⟩
    have heqr : e = r :=
      pairEq_eq_of_pairwise (edgesList g) (edgesList_pairwise g hI hnd)
        e r he hrL hpr
    exact (of_decide_eq_true hrT) (heqr ▸ hT)

theorem topEdges_subset (g : NGraph) (n : Int) (e : String × String)
    (he : e ∈ topEdges g n) : e ∈ edgesList g := by
  rcases List.mem_map.1 he with ⟨ew, hew, rfl⟩
  have h1 : ew ∈ sort_tuples (edgeWeights g) := by
    unfold pySlice at hew
    split at hew <;> exact List.mem_of_mem_take hew
  have h2 : ew ∈ edgeWeights g :=
    (List.perm_insertionSort weightGE (edgeWeights g)).subset h1
  rcases List.mem_map.1 h2 with ⟨e0, he0, heq⟩
  rw [← heq]
  exact he0

theorem mem_edgesList_pruneTop (g : NGraph) (n : Int) (hI : EdgesInv g)
    (hnd : g.nodes.Nodup) (e : String × String) :
    e ∈ edgesList (pruneTop g n) ↔ e ∈ topEdges g n := by
  rw [edgesList_pruneTop g n hI hnd, List.mem_filter]
  constructor
  · exact fun h => of_decide_eq_true h.2
  · intro hT
    exact ⟨topEdges_subset g n e hT, decide_eq_true hT⟩

theorem length_topEdges_le (g : NGraph) (n : Int) (h1 : 1 ≤ n) :
    (topEdges g n).length ≤ (n - 1).toNat := by
  unfold topEdges pySlice
  rw [if_pos (show (0:Int) ≤ n - 1 by omega)]
  rw [List.length_map, List.length_take]
  exact min_le_left _ _

theorem length_edgesList_pruneTop_le (g : NGraph) (n : Int) (h1 : 1 ≤ n)
    (hI : EdgesInv g) (hnd : g.nodes.Nodup) :
    ((edgesList (pruneTop g n)).length : Int) ≤ n - 1 := by
  have hLnd : (edgesList g).Nodup := edgesList_nodup g hI hnd
  have hchar := edgesList_pruneTop g n hI hnd
  have hnd2 : (edgesList (pruneTop g n)).Nodup := by
    rw [hchar]
    exact hLnd.filter _
  have hsubF : (edgesList (pruneTop g n)).toFinset ⊆ (topEdges g n).toFinset := by
    intro x hx
    rw [List.mem_toFinset] at hx ⊢
    exact (mem_edgesList_pruneTop g n hI hnd x).1 hx
  have hcard : (edgesList (pruneTop g n)).length ≤ (topEdges g n).length := by
    calc (edgesList (pruneTop g n)).length
        = (edgesList (pruneTop g n)).toFinset.card :=
          (List.toFinset_card_of_nodup hnd2).symm
      _ ≤ (topEdges g n).toFinset.card := Finset.card_le_card hsubF
      _ ≤ (topEdges g n).length := List.toFinset_card_le _
  have htop := length_topEdges_le g n h1
  omega

theorem filter_orderedInsert_weight (w : Nat) (a : (String × String) × Nat)
    (s : List ((String × String) × Nat)) :
    (List.orderedInsert weightGE a s).filter (fun x => decide (x.2 = w))
      = if a.2 = w
        then a :: s.filter (fun x => decide (x.2 = w))
        else s.filter (fun x => decide (x.2 = w)) := by
  induction s with
  | nil =>
    show [a].filter _ = _
    by_cases haw : a.2 = w
    · rw [filter_cons_pos (fun x => decide (x.2 = w)) a []
        (decide_eq_true haw), if_pos haw]
    · rw [filter_cons_neg (fun x => decide (x.2 = w)) a []
        (decide_eq_false haw), if_neg haw]
  | cons b l ih =>
    show (if weightGE a b then a :: b :: l
        else b :: List.orderedInsert weightGE a l).filter _ = _
    by_cases hr : weightGE a b
    · rw [if_pos hr]
      by_cases haw : a.2 = w
      · rw [filter_cons_pos (fun x => decide (x.2 = w)) a (b :: l)
          (decide_eq_true haw), if_pos haw]
      · rw [filter_cons_neg (fun x => decide (x.2 = w)) a (b :: l)
          (decide_eq_false haw), if_neg haw]
    · rw [if_neg hr]
      have hab : a.2 < b.2 := Nat.lt_of_not_le hr
      by_cases hbw : b.2 = w
      · have haw : ¬ a.2 = w := by omega
        rw [filter_cons_pos (fun x => decide (x.2 = w)) b
            (List.orderedInsert weightGE a l) (decide_eq_true hbw),
          ih, if_neg haw,
          filter_cons_pos (fun x => decide (x.2 = w)) b l
            (decide_eq_true hbw), if_neg haw]
      · by_cases haw : a.2 = w
        · rw [filter_cons_neg (fun x => decide (x.2 = w)) b
              (List.orderedInsert weightGE a l) (decide_eq_false hbw),
            ih, if_pos haw,
            filter_cons_neg (fun x => decide (x.2 = w)) b l
              (decide_eq_false hbw), if_pos haw]
        · rw [filter_cons_neg (fun x => decide (x.2 = w)) b
              (List.orderedInsert weightGE a l) (decide_eq_false hbw),
            ih, if_neg haw,
            filter_cons_neg (fun x => decide (x.2 = w)) b l
              (decide_eq_false hbw), if_neg haw]

theorem sort_tuples_stable (l : List ((String × String) × Nat)) (w : Nat) :
    (sort_tuples l).filter (fun x => decide (x.2 = w))
      = l.filter (fun x => decide (x.2 = w)) := by
  unfold sort_tuples
  induction l with
  | nil => rfl
  | cons a l ih =>
    show (List.orderedInsert weightGE a
        (l.insertionSort weightGE)).filter _ = _
    rw [filter_orderedInsert_weight w a (l.insertionSort weightGE), ih]
    by_cases haw : a.2 = w
    · rw [if_pos haw, filter_cons_pos (fun x => decide (x.2 = w)) a l
        (decide_eq_true haw)]
    · rw [if_neg haw, filter_cons_neg (fun x => decide (x.2 = w)) a l
        (decide_eq_false haw)]

/-- The full behaviour of the shared pruning tail on a well-formed graph:
the edge count bound, the exact identification of the survivors with the
top slice of the stable descending sort, the sort facts themselves
(permutation, descending order, weight-class stability), and the absence
of degree-0 nodes. -/
theorem pruneTop_spec (G : NGraph) (top_n : Int) (h1 : 1 ≤ top_n)
    (hI : EdgesInv G) (hnd : G.nodes.Nodup) :
    (((edgesList (pruneTop G top_n)).length : Int) ≤ top_n - 1) ∧
    (∀ e, e ∈ edgesList (pruneTop G top_n) ↔ e ∈ topEdges G top_n) ∧
    topEdges G top_n
      = ((sort_tuples (edgeWeights G)).take (top_n - 1).toNat).map
          (fun ew => ew.1) ∧
    (sort_tuples (edgeWeights G)).Perm (edgeWeights G) ∧
    (sort_tuples (edgeWeights G)).Sorted weightGE ∧
    (∀ w, (sort_tuples (edgeWeights G)).filter (fun x => decide (x.2 = w))
      = (edgeWeights G).filter (fun x => decide (x.2 = w))) ∧
    ∀ v ∈ (pruneTop G top_n).nodes, degreeOf (pruneTop G top_n) v ≠ 0 := by
  refine ⟨length_edgesList_pruneTop_le G top_n h1 hI hnd,
    mem_edgesList_pruneTop G top_n hI hnd, ?_,
    List.perm_insertionSort weightGE (edgeWeights G),
    List.sorted_insertionSort weightGE (edgeWeights G),
    fun w => sort_tuples_stable (edgeWeights G) w, ?_⟩
  · unfold topEdges pySlice
    rw [if_pos (show (0:Int) ≤ top_n - 1 by omega)]
  · intro v hv
    exact degreeOf_removeIsolates_ne_zero
      (removeEdgesFrom G (edgesRemove G top_n)) v hv

/-! ### C5: self-loops and edge weights -/

/-- Counterexample to C5 as stated: with the duplicated word list
`["a", "a"]`, the restricted-vocabulary builder produces a SELF-LOOP
`(a, a)` — the aliased `temp_targ_list = targ_list` removes only one of
the duplicate occurrences before the inner edge loop pairs `a` with the
remaining `a`. -/
theorem C5_no_self_loop_cex :
    ¬ (∀ e ∈ edgesList (generate_graph_data_words [] [⟨"a b", 1⟩] ["a", "a"]),
        e.1 ≠ e.2) := by
  decide

/-- C5 (amended): in every graph produced by the ego and global builders,
and by the restricted-vocabulary builder whenever the supplied word list
has no duplicate entries, there are no self-loop edges and every edge's
weight is a positive integer equal to the number of records whose title
token set contains both endpoints.  (With duplicated `words` entries the
restricted builder can emit a self-loop; its weight still equals the
co-occurrence count.) -/
theorem C5_edge_weights (stop : List String) (recs : List Record)
    (word : String) (words : List String) (top_n : Int) :
    (∀ e ∈ edgesList (generate_graph_data_word stop recs word top_n),
      e.1 ≠ e.2 ∧
      getWeight (generate_graph_data_word stop recs word top_n) e.1 e.2
        = coCount stop recs e.1 e.2 ∧
      0 < coCount stop recs e.1 e.2) ∧
    (∀ e ∈ edgesList (generate_graph_data_all stop recs top_n),
      e.1 ≠ e.2 ∧
      getWeight (generate_graph_data_all stop recs top_n) e.1 e.2
        = coCount stop recs e.1 e.2 ∧
      0 < coCount stop recs e.1 e.2) ∧
    (words.Nodup →
      ∀ e ∈ edgesList (generate_graph_data_words stop recs words),
        e.1 ≠ e.2 ∧
        getWeight (generate_graph_data_words stop recs words) e.1 e.2
          = coCount stop recs e.1 e.2 ∧
        0 < coCount stop recs e.1 e.2) := by
  refine ⟨?_, ?_, ?_⟩
  · intro e he
    have hI : EdgesInv (buildGraphWord stop recs word) :=
      edgesInv_setDegrees _ (edgesInv_buildCoreWord stop recs word)
    obtain ⟨hpos, heq⟩ :=
      pruneTop_edge_weight (buildGraphWord stop recs word) top_n hI e he
    have hform : getWeight (buildGraphWord stop recs word) e.1 e.2
        = if e.1 ≠ e.2 ∧ (e.1 = word ∨ e.2 = word) then
            coCount stop recs e.1 e.2 else 0 :=
      getWeight_buildCoreWord stop recs word e.1 e.2
    rw [heq, hform] at hpos
    rw [show getWeight (generate_graph_data_word stop recs word top_n) e.1 e.2
        = getWeight (pruneTop (buildGraphWord stop recs word) top_n) e.1 e.2
      from rfl, heq, hform]
    by_cases hcond : e.1 ≠ e.2 ∧ (e.1 = word ∨ e.2 = word)
    · rw [if_pos hcond] at hpos ⊢
      exact ⟨hcond.1, rfl, hpos⟩
    · rw [if_neg hcond] at hpos
      exact absurd hpos (by omega)
  · intro e he
    have hI : EdgesInv (buildGraphAll stop recs) :=
      edgesInv_setDegrees _ (edgesInv_buildCoreAll stop recs)
    obtain ⟨hpos, heq⟩ :=
      pruneTop_edge_weight (buildGraphAll stop recs) top_n hI e he
    have hform : getWeight (buildGraphAll stop recs) e.1 e.2
        = if e.1 ≠ e.2 then coCount stop recs e.1 e.2 else 0 :=
      getWeight_buildCoreAll stop recs e.1 e.2
    rw [heq, hform] at hpos
    rw [show getWeight (generate_graph_data_all stop recs top_n) e.1 e.2
        = getWeight (pruneTop (buildGraphAll stop recs) top_n) e.1 e.2
      from rfl, heq, hform]
    by_cases hcond : e.1 ≠ e.2
    · rw [if_pos hcond] at hpos ⊢
      exact ⟨hcond, rfl, hpos⟩
    · rw [if_neg hcond] at hpos
      exact absurd hpos (by omega)
  · intro hw e he
    have hI : EdgesInv (buildGraphWords stop recs words) :=
      edgesInv_setDegrees _ (edgesInv_buildCoreWords stop recs words hw)
    have hpos := edgesList_weight_pos (buildGraphWords stop recs words) hI e he
    have hform : getWeight (buildGraphWords stop recs words) e.1 e.2
        = if e.1 ≠ e.2 ∧ e.1 ∈ words ∧ e.2 ∈ words then
            coCount stop recs e.1 e.2 else 0 :=
      getWeight_buildCoreWords stop recs words hw e.1 e.2
    rw [hform] at hpos
    rw [show getWeight (generate_graph_data_words stop recs words) e.1 e.2
        = getWeight (buildGraphWords stop recs words) e.1 e.2 from rfl, hform]
    by_cases hcond : e.1 ≠ e.2 ∧ e.1 ∈ words ∧ e.2 ∈ words
    · rw [if_pos hcond] at hpos ⊢
      exact ⟨hcond.1, rfl, hpos⟩
    · rw [if_neg hcond] at hpos
      exact absurd hpos (by omega)

/-- Witness for the amended C5: in the global view built from the single
record `"a b"`, the edge `(a, b)` is not a self-loop and carries weight
equal to its co-occurrence count `1`. -/
theorem C5_edge_weights_witness :
    ("a", "b").1 ≠ ("a", "b").2 ∧
    getWeight (generate_graph_data_all [] [⟨"a b", 1⟩] 5) "a" "b"
      = coCount [] [⟨"a b", 1⟩] "a" "b" ∧
    0 < coCount [] [⟨"a b", 1⟩] "a" "b" :=
  (C5_edge_weights [] [⟨"a b", 1⟩] "x" [] 5).2.1 ("a", "b") (by decide)

/-! ### C6: top-N edge pruning -/

/-- C6: in the global view (`generate_graph_data_all`) and the ego view
(`generate_graph_data_word`) with `top_n ≥ 1`, the edges retained after
pruning number at most `top_n − 1` and are exactly the `top_n − 1` first
entries of the stable descending weight sort of the built graph's edges
(`sort_tuples` is a stable sort: it permutes the encounter-order list,
is sorted descending, and preserves the encounter order within every
weight class), and every node of the pruned graph has nonzero degree. -/
theorem C6_top_edge_pruning (stop : List String) (recs : List Record)
    (word : String) (top_n : Int) (h1 : 1 ≤ top_n) :
    ((((edgesList (generate_graph_data_all stop recs top_n)).length : Int)
        ≤ top_n - 1) ∧
     (∀ e, e ∈ edgesList (generate_graph_data_all stop recs top_n) ↔
        e ∈ topEdges (buildGraphAll stop recs) top_n) ∧
     topEdges (buildGraphAll stop recs) top_n
       = ((sort_tuples (edgeWeights (buildGraphAll stop recs))).take
           (top_n - 1).toNat).map (fun ew => ew.1) ∧
     (sort_tuples (edgeWeights (buildGraphAll stop recs))).Perm
       (edgeWeights (buildGraphAll stop recs)) ∧
     (sort_tuples (edgeWeights (buildGraphAll stop recs))).Sorted weightGE ∧
     (∀ w, (sort_tuples (edgeWeights (buildGraphAll stop recs))).filter
         (fun x => decide (x.2 = w))
       = (edgeWeights (buildGraphAll stop recs)).filter
         (fun x => decide (x.2 = w))) ∧
     ∀ v ∈ (generate_graph_data_all stop recs top_n).nodes,
       degreeOf (generate_graph_data_all stop recs top_n) v ≠ 0) ∧
    ((((edgesList (generate_graph_data_word stop recs word top_n)).length : Int)
        ≤ top_n - 1) ∧
     (∀ e, e ∈ edgesList (generate_graph_data_word stop recs word top_n) ↔
        e ∈ topEdges (buildGraphWord stop recs word) top_n) ∧
     topEdges (buildGraphWord stop recs word) top_n
       = ((sort_tuples (edgeWeights (buildGraphWord stop recs word))).take
           (top_n - 1).toNat).map (fun ew => ew.1) ∧
     (sort_tuples (edgeWeights (buildGraphWord stop recs word))).Perm
       (edgeWeights (buildGraphWord stop recs word)) ∧
     (sort_tuples (edgeWeights (buildGraphWord stop recs word))).Sorted
       weightGE ∧
     (∀ w, (sort_tuples (edgeWeights (buildGraphWord stop recs word))).filter
         (fun x => decide (x.2 = w))
       = (edgeWeights (buildGraphWord stop recs word)).filter
         (fun x => decide (x.2 = w))) ∧
     ∀ v ∈ (generate_graph_data_word stop recs word top_n).nodes,
       degreeOf (generate_graph_data_word stop recs word top_n) v ≠ 0) := by
  constructor
  · exact pruneTop_spec (buildGraphAll stop recs) top_n h1
      (edgesInv_setDegrees _ (edgesInv_buildCoreAll stop recs))
      (nodup_setDegrees _ (nodup_buildCoreAll stop recs))
  · exact pruneTop_spec (buildGraphWord stop recs word) top_n h1
      (edgesInv_setDegrees _ (edgesInv_buildCoreWord stop recs word))
      (nodup_setDegrees _ (nodup_buildCoreWord stop recs word))

/-- Witness for C6 on the three-record fixture with `top_n = 2`: the
pruned global graph keeps at most one edge. -/
theorem C6_top_edge_pruning_witness :
    ((edgesList (generate_graph_data_all []
        [⟨"a b", 1⟩, ⟨"a b", 1⟩, ⟨"a c", 1⟩] 2)).length : Int) ≤ 2 - 1 :=
  (C6_top_edge_pruning [] [⟨"a b", 1⟩, ⟨"a b", 1⟩, ⟨"a c", 1⟩] "a" 2
    (by decide)).1.1

end FundingViz
